import Mathlib

/-!
Verification development for the retrieval-augmented-generation core of the
technical-assistant repository.  The embedded components are:

* `VectorStore`  — the in-memory similarity index (`vectorStore.ts`):
  `cosineSimilarity`, `InMemoryVectorStore` with its primary entry map and
  secondary document index, and all its operations.
* `DocumentChunker` — boundary-aware sliding-window text segmentation
  (`documentChunker.ts`): `splitIntoChunks` and `findNaturalBreak`.
* `RagEngine` — retrieval filtering and confidence scoring (`ragEngine.ts`):
  `extractTopicsFromQuery`, the topic-guard in `searchRelevantChunks`, and
  `calculateConfidence`.
* `QueryProcessor` — context assembly (`queryProcessor.ts`):
  `assembleContext` and `buildSystemPrompt`.

Modelling conventions: JavaScript strings are modelled as Lean `String`
(respectively `List Char` where the source does index arithmetic);
JavaScript `Map`/`Set` (which preserve insertion order) are modelled as
association lists / lists with the corresponding insertion-order semantics;
IEEE doubles are modelled as exact numbers, `ℚ` where only field arithmetic
occurs and `ℝ` where `Math.sqrt` occurs; a thrown `Error` is modelled with
`Except String`; the external embedding/completion provider is a parameter.
-/

namespace TechAssist

/-- Lower-cases an ASCII letter; models `String.prototype.toLowerCase`,
which on the ASCII range (the only range the sources and stop-word lists
use) maps `A`–`Z` to `a`–`z` and leaves everything else unchanged. -/
def asciiLower (c : Char) : Char :=
  if 'A' ≤ c ∧ c ≤ 'Z' then Char.ofNat (c.toNat + 32) else c

/-- Lower-case every character of a string (model of `toLowerCase`). -/
def strLower (s : String) : String :=
  ⟨s.data.map asciiLower⟩

namespace VectorStore

/-- Metadata carried by a vector entry (`VectorEntry.metadata` in
`shared/types`): the owning document name and an optional section tag.
The source field `section` is renamed `sectionName` because `section` is a
Lean keyword. -/
structure EntryMetadata where
  documentName : String
  sectionName : Option String
  deriving DecidableEq

/-- An entry of the similarity index (`VectorEntry` in `shared/types`,
with the fields used by `vectorStore.ts` and `ragEngine.ts`). -/
structure VectorEntry where
  id : String
  documentId : String
  chunkIndex : Nat
  content : String
  embedding : List ℝ
  metadata : EntryMetadata

/-- A similarity search result (`SearchResult` in `vectorStore.ts`). -/
structure SearchResult where
  entry : VectorEntry
  score : ℝ

/-! Association-list model of a JavaScript `Map`, which iterates in key
insertion order: `set` of a fresh key appends at the end, `set` of a present
key updates the value in place, `delete` removes the pair. -/

/-- `m.get(k)` on a JavaScript `Map`. -/
def alookup {α : Type} (m : List (String × α)) (k : String) : Option α :=
  match m with
  | [] => none
  | p :: rest => if p.1 = k then some p.2 else alookup rest k

/-- `m.set(k, v)` on a JavaScript `Map`: in-place update of a present key,
append of a fresh one. -/
def mapSet {α : Type} (m : List (String × α)) (k : String) (v : α) :
    List (String × α) :=
  if (alookup m k).isSome then
    m.map (fun p => if p.1 = k then (k, v) else p)
  else
    m ++ [(k, v)]

/-- `m.delete(k)` on a JavaScript `Map` (keys are unique, so filtering out
every pair with key `k` removes exactly the one binding). -/
def mapDelete {α : Type} (m : List (String × α)) (k : String) :
    List (String × α) :=
  m.filter (fun p => ¬(p.1 = k))

/-- In-place mutation of the value stored under a present key, as performed
by `map.get(k)!.add(...)` in the source. -/
def mapUpdate {α : Type} (m : List (String × α)) (k : String) (f : α → α) :
    List (String × α) :=
  m.map (fun p => if p.1 = k then (p.1, f p.2) else p)

/-- The keys of the association list, in iteration order. -/
def keys {α : Type} (m : List (String × α)) : List String :=
  m.map (·.1)

/-- `s.add(x)` on a JavaScript `Set` (insertion order, no duplicates). -/
def setAdd (s : List String) (x : String) : List String :=
  if x ∈ s then s else s ++ [x]

/-- `s.delete(x)` on a JavaScript `Set`. -/
def setRemove (s : List String) (x : String) : List String :=
  s.filter (fun y => ¬(y = x))

/-- The state of `InMemoryVectorStore`: the primary entry map (`entries`,
keyed by entry id) and the secondary document index (`documentIndex`,
document id to the set of its entry ids). -/
structure InMemoryVectorStore where
  entries : List (String × VectorEntry)
  documentIndex : List (String × List String)

/-- A freshly constructed store (`new InMemoryVectorStore()`). -/
def emptyStore : InMemoryVectorStore :=
  ⟨[], []⟩

/-- `InMemoryVectorStore.add`: stores the entry under its id and records
the id in the document index.  Note the source performs no dimension
check. -/
def add (st : InMemoryVectorStore) (entry : VectorEntry) :
    InMemoryVectorStore :=
  let entries := mapSet st.entries entry.id entry
  let documentIndex :=
    if (alookup st.documentIndex entry.documentId).isSome then
      st.documentIndex
    else
      mapSet st.documentIndex entry.documentId []
  let documentIndex := mapUpdate documentIndex entry.documentId
    (fun s => setAdd s entry.id)
  ⟨entries, documentIndex⟩

/-- `InMemoryVectorStore.addMany`: repeated `add`. -/
def addMany (st : InMemoryVectorStore) (newEntries : List VectorEntry) :
    InMemoryVectorStore :=
  newEntries.foldl add st

/-- `cosineSimilarity` from `vectorStore.ts`: dimension-mismatch throws,
empty vectors score 0, zero magnitude scores 0, otherwise
`dot / (sqrt magA * sqrt magB)`.  The single accumulation loop of the
source is modelled by three folds over the zipped vectors. -/
noncomputable def cosineSimilarity (a b : List ℝ) : Except String ℝ :=
  if a.length ≠ b.length then
    .error ("Vector dimension mismatch: " ++ toString a.length ++ " vs " ++
      toString b.length)
  else if a.length = 0 then
    .ok 0
  else
    let dotProduct := ((a.zip b).map (fun p => p.1 * p.2)).sum
    let magnitudeA := (a.map (fun x => x * x)).sum
    let magnitudeB := (b.map (fun x => x * x)).sum
    let magnitude := Real.sqrt magnitudeA * Real.sqrt magnitudeB
    if magnitude = 0 then .ok 0 else .ok (dotProduct / magnitude)

/-- Stable descending sort by score (`results.sort((a, b) => b.score -
a.score)`; ECMAScript `sort` is stable). -/
noncomputable def sortByScoreDesc (results : List SearchResult) :
    List SearchResult :=
  List.mergeSort results (fun x y => decide (y.score ≤ x.score))

/-- `InMemoryVectorStore.search`: scores every stored entry against the
query embedding (a thrown dimension mismatch aborts the search), sorts
descending and keeps the first `limit` results. -/
noncomputable def search (st : InMemoryVectorStore)
    (queryEmbedding : List ℝ) (limit : Nat) :
    Except String (List SearchResult) := do
  let results ← st.entries.mapM (fun p => do
    let score ← cosineSimilarity queryEmbedding p.2.embedding
    pure (⟨p.2, score⟩ : SearchResult))
  pure ((sortByScoreDesc results).take limit)

/-- `InMemoryVectorStore.delete`: removes one entry by id and maintains the
document index, pruning the document key when its set becomes empty.
Returns the flag together with the new state. -/
def deleteEntry (st : InMemoryVectorStore) (id : String) :
    Bool × InMemoryVectorStore :=
  match alookup st.entries id with
  | none => (false, st)
  | some entry =>
    let entries := mapDelete st.entries id
    let documentIndex :=
      match alookup st.documentIndex entry.documentId with
      | none => st.documentIndex
      | some docEntries =>
        let docEntries := setRemove docEntries id
        if docEntries.length = 0 then
          mapDelete st.documentIndex entry.documentId
        else
          mapUpdate st.documentIndex entry.documentId (fun _ => docEntries)
    (true, ⟨entries, documentIndex⟩)

/-- One iteration of the `deleteByDocumentId` loop: `this.entries.delete(id)`
counted when the id was present. -/
def deleteStep (acc : Nat × List (String × VectorEntry)) (id : String) :
    Nat × List (String × VectorEntry) :=
  if (alookup acc.2 id).isSome then (acc.1 + 1, mapDelete acc.2 id)
  else (acc.1, acc.2)

/-- `InMemoryVectorStore.deleteByDocumentId`: walks the document's id set,
deleting each id from the entry map and counting the successes, then drops
the document key.  Returns the count together with the new state. -/
def deleteByDocumentId (st : InMemoryVectorStore) (documentId : String) :
    Nat × InMemoryVectorStore :=
  match alookup st.documentIndex documentId with
  | none => (0, st)
  | some entryIds =>
    let res := entryIds.foldl deleteStep (0, st.entries)
    (res.1, ⟨res.2, mapDelete st.documentIndex documentId⟩)

/-- `InMemoryVectorStore.get`. -/
def get (st : InMemoryVectorStore) (id : String) : Option VectorEntry :=
  alookup st.entries id

/-- `InMemoryVectorStore.getByDocumentId`: resolves the document's id set
against the entry map, skipping ids that do not resolve. -/
def getByDocumentId (st : InMemoryVectorStore) (documentId : String) :
    List VectorEntry :=
  match alookup st.documentIndex documentId with
  | none => []
  | some entryIds => entryIds.filterMap (fun id => alookup st.entries id)

/-- `InMemoryVectorStore.size`. -/
def size (st : InMemoryVectorStore) : Nat :=
  st.entries.length

/-- `InMemoryVectorStore.clear`. -/
def clear (_ : InMemoryVectorStore) : InMemoryVectorStore :=
  ⟨[], []⟩

/-- The vector-store effect of `RAGEngine.indexDocument` on one document:
purge every existing entry of the document, then add the entries built
from its fresh chunks one by one (parsing, chunking and embedding are
external; the chunk ids are fresh uuids and every entry is tagged with the
document's id). -/
def indexDocumentEntries (st : InMemoryVectorStore) (documentId : String)
    (newEntries : List VectorEntry) : InMemoryVectorStore :=
  addMany (deleteByDocumentId st documentId).2 newEntries

/-- The two internal maps agree (the invariant claimed for the store):
every stored entry's id is in the document-index set of its document,
every id in a document-index set resolves to an entry of that document,
and no document-index set is empty. -/
def Consistent (st : InMemoryVectorStore) : Prop :=
  (∀ id e, alookup st.entries id = some e →
    id ∈ (alookup st.documentIndex e.documentId).getD []) ∧
  (∀ d s, alookup st.documentIndex d = some s → ∀ id ∈ s,
    (alookup st.entries id).map (fun e => e.documentId) = some d) ∧
  (∀ d s, alookup st.documentIndex d = some s → s ≠ [])

/-- Full representation invariant of the store: both maps have unique keys
(as JavaScript `Map`s do), the id sets are duplicate-free (as JavaScript
`Set`s are), entries are stored under their own id, and the two maps are
`Consistent`. -/
def WF (st : InMemoryVectorStore) : Prop :=
  (keys st.entries).Nodup ∧ (keys st.documentIndex).Nodup ∧
  (∀ d s, alookup st.documentIndex d = some s → s.Nodup) ∧
  (∀ id e, alookup st.entries id = some e → e.id = id) ∧
  Consistent st

/-- The mutating operations of the `IVectorStore` interface. -/
inductive StoreOp where
  | addOp (entry : VectorEntry)
  | addManyOp (newEntries : List VectorEntry)
  | deleteOp (id : String)
  | deleteByDocumentIdOp (documentId : String)
  | clearOp

/-- Apply one mutating operation to a store state. -/
def applyOp (st : InMemoryVectorStore) : StoreOp → InMemoryVectorStore
  | .addOp e => add st e
  | .addManyOp es => addMany st es
  | .deleteOp id => (deleteEntry st id).2
  | .deleteByDocumentIdOp d => (deleteByDocumentId st d).2
  | .clearOp => clear st

/-- Apply a sequence of operations to the empty store. -/
def applyOps (ops : List StoreOp) : InMemoryVectorStore :=
  ops.foldl applyOp emptyStore

/-- An `add` is safe when its id is not currently stored under a different
document id (the problematic reuse the source does not guard against). -/
def SafeAdd (st : InMemoryVectorStore) (e : VectorEntry) : Prop :=
  ((alookup st.entries e.id).map (fun o => o.documentId)).getD e.documentId
    = e.documentId

instance (st : InMemoryVectorStore) (e : VectorEntry) :
    Decidable (SafeAdd st e) := by
  unfold SafeAdd
  exact inferInstance

/-- Safety of `addMany`: each entry is a safe `add` on the intermediate
state it meets. -/
def SafeAddMany (st : InMemoryVectorStore) : List VectorEntry → Prop
  | [] => True
  | e :: es => SafeAdd st e ∧ SafeAddMany (add st e) es

/-- Safety of one operation; only adds are constrained. -/
def SafeOp (st : InMemoryVectorStore) : StoreOp → Prop
  | .addOp e => SafeAdd st e
  | .addManyOp es => SafeAddMany st es
  | .deleteOp _ => True
  | .deleteByDocumentIdOp _ => True
  | .clearOp => True

/-- Safety of a whole operation sequence from a given state. -/
def SafeTrace (st : InMemoryVectorStore) : List StoreOp → Prop
  | [] => True
  | op :: ops => SafeOp st op ∧ SafeTrace (applyOp st op) ops

end VectorStore

namespace DocumentChunker

/-- Chunking configuration (`ChunkingConfig` in `documentChunker.ts`). -/
structure ChunkingConfig where
  chunkSize : Nat
  chunkOverlap : Nat
  minChunkSize : Nat
  deriving DecidableEq

/-- `DEFAULT_CHUNKING_CONFIG`. -/
def DEFAULT_CHUNKING_CONFIG : ChunkingConfig :=
  ⟨1000, 200, 100⟩

/-- A chunk produced by `splitIntoChunks` (`TextChunk`, before section
assignment and embedding). -/
structure TextChunk where
  content : List Char
  chunkIndex : Nat
  deriving DecidableEq

/-- The ECMAScript white-space and line-terminator characters recognised by
`String.prototype.trim` and by the regexp class `\s`. -/
def isJsWhitespace (c : Char) : Bool :=
  let n := c.toNat
  (0x9 ≤ n ∧ n ≤ 0xD) ∨ n = 0x20 ∨ n = 0xA0 ∨ n = 0x1680 ∨
    (0x2000 ≤ n ∧ n ≤ 0x200A) ∨ n = 0x2028 ∨ n = 0x2029 ∨ n = 0x202F ∨
    n = 0x205F ∨ n = 0x3000 ∨ n = 0xFEFF

/-- `String.prototype.trim`: strip leading and trailing whitespace. -/
def trimChars (l : List Char) : List Char :=
  ((l.dropWhile isJsWhitespace).reverse.dropWhile isJsWhitespace).reverse

/-- `text.slice(start, stop)` for `0 ≤ start`, `0 ≤ stop` (the only way the
source calls it); clamps to the text length and yields `[]` when
`stop ≤ start`. -/
def slice (text : List Char) (start stop : Nat) : List Char :=
  (text.take stop).drop start

/-- `w.lastIndexOf(pat)` for a non-empty pattern: the largest index at
which `pat` occurs in `w`, if any (the source compares the `-1` "absent"
result only against non-negative bounds, so `none` models it exactly). -/
def lastIndexOfSub (w pat : List Char) : Option Nat :=
  ((List.range (w.length + 1)).filter
    (fun i => List.isPrefixOf pat (w.drop i))).max?

/-- Length of a match of the regexp `[.!?]\s+(?=[A-Z])` anchored at the
head of `w`: a sentence terminator, a maximal non-empty whitespace run
(greedy `\s+`; backtracking cannot help because a shorter run is followed
by whitespace, not a capital), and a look-ahead capital letter that is not
part of the match. -/
def sentenceMatchAt (w : List Char) : Option Nat :=
  match w with
  | [] => none
  | c :: rest =>
    if c = '.' ∨ c = '!' ∨ c = '?' then
      let n := (rest.takeWhile isJsWhitespace).length
      if 0 < n then
        match rest.drop n with
        | d :: _ => if 'A' ≤ d ∧ d ≤ 'Z' then some (1 + n) else none
        | [] => none
      else none
    else none

/-- Scanning loop of `globalMatches`, with the remaining-length fuel made
explicit so that the recursion is structural (each step consumes at least
one character, so fuel equal to the scanned string's length never runs
out). -/
def globalMatchesAux (matchAt : List Char → Option Nat) :
    Nat → List Char → List (List Char)
  | 0, _ => []
  | _, [] => []
  | fuel + 1, c :: rest =>
    match matchAt (c :: rest) with
    | some n =>
      (c :: rest).take n :: globalMatchesAux matchAt fuel (rest.drop (n - 1))
    | none => globalMatchesAux matchAt fuel rest

/-- All matches of a regexp with the `g` flag, scanning left to right and
resuming after each match, given the anchored matcher `matchAt` (which
never matches the empty string). -/
def globalMatches (matchAt : List Char → Option Nat) (w : List Char) :
    List (List Char) :=
  globalMatchesAux matchAt w.length w

/-- The paragraph-break branch of `findNaturalBreak`: the last `"\n\n"` of
the window, accepted when it lies past the window's midpoint.  The source
compares against `searchWindow.length * 0.5`; `0.5` is an exact double, so
the comparison is exactly `2 * pb > length`. -/
def paragraphCut (w : List Char) : Option Nat :=
  match lastIndexOfSub w ['\n', '\n'] with
  | some pb => if 2 * pb > w.length then some (pb + 2) else none
  | none => none

/-- The sentence-end branch of `findNaturalBreak`: the last match of
`[.!?]\s+(?=[A-Z])`, relocated with `lastIndexOf` (which finds the last
occurrence of the matched *string*, look-ahead not included), accepted past
the midpoint; the break falls after the matched terminator-plus-space. -/
def sentenceCut (w : List Char) : Option Nat :=
  let sentenceEndMatch := globalMatches sentenceMatchAt w
  match sentenceEndMatch.getLast? with
  | some lastMatch =>
    match lastIndexOfSub w lastMatch with
    | some lastSentenceEnd =>
      if 2 * lastSentenceEnd > w.length then
        some (lastSentenceEnd + lastMatch.length)
      else none
    | none => none
  | none => none

/-- The word-boundary branch of `findNaturalBreak`: the last space,
accepted when past 70% of the window.  The source compares against
`searchWindow.length * 0.7` in doubles; this is modelled by the exact
comparison `10 * lastSpace > 7 * length` (at the only window length the
pipeline produces, `chunkSize = 1000`, the double product `0.7 * 1000`
rounds to exactly `700`, so the two comparisons agree). -/
def spaceCut (w : List Char) : Option Nat :=
  match lastIndexOfSub w [' '] with
  | some lastSpace =>
    if 10 * lastSpace > 7 * w.length then some (lastSpace + 1) else none
  | none => none

/-- `findNaturalBreak` from `documentChunker.ts`: try a paragraph break,
then a sentence end, then a word boundary, each only past its positional
threshold, and otherwise keep the raw boundary `targetEnd`. -/
def findNaturalBreak (text : List Char) (start targetEnd : Nat) : Nat :=
  let searchWindow := slice text start targetEnd
  match paragraphCut searchWindow with
  | some k => start + k
  | none =>
    match sentenceCut searchWindow with
    | some k => start + k
    | none =>
      match spaceCut searchWindow with
      | some k => start + k
      | none => targetEnd

/-- The window end proposed by one iteration of the `splitIntoChunks`
loop: `Math.min(position + chunkSize, text.length)`, snapped by
`findNaturalBreak` when the raw edge is not at end-of-text. -/
def proposedEnd (text : List Char) (cfg : ChunkingConfig)
    (position : Nat) : Nat :=
  let end0 := min (position + cfg.chunkSize) text.length
  if end0 < text.length then findNaturalBreak text position end0 else end0

/-- The trimmed slice of the current window (`text.slice(position,
end).trim()`). -/
def windowContent (text : List Char) (cfg : ChunkingConfig)
    (position : Nat) : List Char :=
  trimChars (slice text position (proposedEnd text cfg position))

/-- The position update of one loop iteration: advance by
`Math.max(1, end - position - chunkOverlap)` (truncated `ℕ` subtraction
agrees with the source's integer arithmetic under the outer `max 1`), then
apply the stall correction `position <= chunks.length * (chunkSize -
chunkOverlap) - chunkSize`, carried out in `ℤ` as in the source, which
forces `position` to the snapped edge.  `chunksLenAfter` is the chunk
count after the current window was (possibly) emitted. -/
def stepPosition (text : List Char) (cfg : ChunkingConfig) (position : Nat)
    (chunksLenAfter : Nat) : Nat :=
  let endPos := proposedEnd text cfg position
  let step := max 1 (endPos - position - cfg.chunkOverlap)
  let moved := position + step
  if (moved : ℤ) ≤ (chunksLenAfter : ℤ) *
      ((cfg.chunkSize : ℤ) - (cfg.chunkOverlap : ℤ)) - (cfg.chunkSize : ℤ)
  then endPos else moved

/-- The `while (position < text.length)` loop of `splitIntoChunks`, with
explicit fuel (the termination theorem shows `text.length + 1` fuel always
suffices).  Besides the chunk list the model also returns the list of
`[position, end)` windows the loop proposed, which the source materialises
only transiently; `splitIntoChunks` discards them. -/
def chunkLoop (text : List Char) (cfg : ChunkingConfig) :
    Nat → Nat → Nat → List TextChunk → List (Nat × Nat) →
    Option (List TextChunk × List (Nat × Nat))
  | 0, _, _, _, _ => none
  | fuel + 1, position, chunkIndex, chunks, windows =>
    if position < text.length then
      let endPos := proposedEnd text cfg position
      let chunkContent := windowContent text cfg position
      let next :=
        if cfg.minChunkSize ≤ chunkContent.length then
          (chunks ++ [(⟨chunkContent, chunkIndex⟩ : TextChunk)], chunkIndex + 1)
        else (chunks, chunkIndex)
      chunkLoop text cfg fuel (stepPosition text cfg position next.1.length)
        next.2 next.1 (windows ++ [(position, endPos)])
    else
      some (chunks, windows)

/-- `splitIntoChunks` from `documentChunker.ts`: empty or whitespace-only
text yields no chunks, text no longer than `chunkSize` yields one trimmed
chunk, and longer text runs the sliding-window loop. -/
def splitIntoChunks (text : List Char) (cfg : ChunkingConfig) :
    List TextChunk :=
  if trimChars text = [] then []
  else if text.length ≤ cfg.chunkSize then [⟨trimChars text, 0⟩]
  else ((chunkLoop text cfg (text.length + 1) 0 0 [] []).getD ([], [])).1

end DocumentChunker

namespace RagEngine

/-- Chunk metadata as carried through the RAG pipeline (`ChunkMetadata` in
`shared/types`); the source field `section` is renamed `sectionName`
because `section` is a Lean keyword. -/
structure ChunkMetadata where
  documentName : String
  chunkIndex : Nat
  sectionName : Option String
  deriving DecidableEq

/-- A document chunk with its embedding (`DocumentChunk` in
`shared/types`, with the fields `ragEngine.ts` and `queryProcessor.ts`
use). -/
structure DocumentChunk where
  id : String
  documentId : String
  content : String
  embedding : List ℝ
  metadata : ChunkMetadata

/-- `RAGEngineConfig`.  `topK` is a chunk count; the two thresholds are
doubles in the source, modelled as exact rationals. -/
structure RAGEngineConfig where
  topK : Nat
  similarityThreshold : ℚ
  confidenceThreshold : ℚ
  maxContextTokens : Nat

/-- `DEFAULT_RAG_CONFIG`. -/
def DEFAULT_RAG_CONFIG : RAGEngineConfig :=
  ⟨5, 0.35, 0.5, 2000⟩

/-- `RAGEngine.vectorEntryToChunk`. -/
def vectorEntryToChunk (result : VectorStore.SearchResult) : DocumentChunk :=
  { id := result.entry.id
    documentId := result.entry.documentId
    content := result.entry.content
    embedding := result.entry.embedding
    metadata :=
      { documentName := result.entry.metadata.documentName
        chunkIndex := result.entry.chunkIndex
        sectionName := result.entry.metadata.sectionName } }

/-- Length of the match when `pat` is a literal prefix of `s`. -/
def prefixLen (pat : List Char) (s : List Char) : Option Nat :=
  if List.isPrefixOf pat s then some pat.length else none

/-- Regexp alternation over literal alternatives, tried left to right as a
backtracking regexp engine does; the alternative lists used below are
pairwise prefix-free, so at most one alternative can match. -/
def firstAltLen (alts : List (List Char)) (s : List Char) : Option Nat :=
  alts.findSome? (fun a => prefixLen a s)

/-- The verb alternatives of the first question pattern. -/
def verbAlts : List (List Char) :=
  ["set up".data, "install".data, "configure".data, "use".data,
    "run".data, "start".data]

/-- Anchored matcher for the regexp
`how (do|can|to) (i |you )?(set up|install|configure|use|run|start)` (the
`i` flag is moot: the subject string is already lower-cased).  If the
optional group consumes `"i "` or `"you "` but no verb follows, the engine
backtracks to the empty alternative; the final verb try at that point
cannot succeed (no verb starts with `"i "` or `"you "`), so the fallback
branch below is exercised exactly when the optional group matched
nothing. -/
def pattern1Match (s : List Char) : Option Nat :=
  match prefixLen "how ".data s with
  | none => none
  | some n0 =>
    match firstAltLen ["do ".data, "can ".data, "to ".data] (s.drop n0) with
    | none => none
    | some n1 =>
      let s2 := s.drop (n0 + n1)
      match (firstAltLen ["i ".data, "you ".data] s2).bind (fun n2 =>
          (firstAltLen verbAlts (s2.drop n2)).map (fun n3 => n2 + n3)) with
      | some n23 => some (n0 + n1 + n23)
      | none =>
        match firstAltLen verbAlts s2 with
        | some n3 => some (n0 + n1 + n3)
        | none => none

/-- Anchored matcher for a literal pattern (the remaining question
patterns are plain words; the `i` flag is again moot on lower-cased
input). -/
def litMatch (pat : String) (s : List Char) : Option Nat :=
  prefixLen pat.data s

/-- Scanning loop of `replaceScan`, with the remaining-length fuel made
explicit so that the recursion is structural (each step consumes at least
one character, so fuel equal to the scanned string's length never runs
out). -/
def replaceScanAux (matchAt : List Char → Option Nat) :
    Nat → List Char → List Char
  | 0, s => s
  | _, [] => []
  | fuel + 1, c :: rest =>
    match matchAt (c :: rest) with
    | some n => replaceScanAux matchAt fuel (rest.drop (n - 1))
    | none => c :: replaceScanAux matchAt fuel rest

/-- `String.prototype.replace` with a global regexp and the empty
replacement: scan left to right, delete each (non-empty, leftmost)
match and resume after it. -/
def replaceScan (matchAt : List Char → Option Nat) (s : List Char) :
    List Char :=
  replaceScanAux matchAt s.length s

/-- The question patterns stripped by `extractTopicsFromQuery`, in source
order. -/
def questionPatterns : List (List Char → Option Nat) :=
  [pattern1Match, litMatch "what is", litMatch "tell me about",
    litMatch "explain", litMatch "help with"]

/-- The stop-word list of `extractTopicsFromQuery`. -/
def stopWords : List String :=
  ["the", "a", "an", "on", "my", "computer", "machine", "system", "please",
    "can", "you", "i", "me", "how", "what", "where", "when", "why", "is",
    "are", "do", "does", "to", "for", "with", "and", "or", "in", "it",
    "this", "that"]

/-- Splitting loop of `splitWsRuns`, with the remaining-length fuel made
explicit so that the recursion is structural (each step consumes at least
one character, so fuel equal to the scanned string's length never runs
out). -/
def splitWsRunsAux : Nat → List Char → List (List Char)
  | 0, _ => []
  | _, [] => []
  | fuel + 1, c :: rest =>
    if DocumentChunker.isJsWhitespace c then splitWsRunsAux fuel rest
    else
      let run := (c :: rest).takeWhile
        (fun d => !DocumentChunker.isJsWhitespace d)
      run :: splitWsRunsAux fuel ((c :: rest).drop run.length)

/-- Split on runs of whitespace (`split(/\s+/)`): the maximal non-blank
runs, in order.  (JavaScript `split` can additionally produce empty
boundary tokens; the caller's `length > 2` filter discards those, so they
are not modelled.) -/
def splitWsRuns (w : List Char) : List (List Char) :=
  splitWsRunsAux w.length w

/-- `RAGEngine.extractTopicsFromQuery`: lower-case the query, strip the
question patterns in order, drop the punctuation `? . , !`, split on
whitespace, and keep words longer than two characters that are not stop
words. -/
def extractTopicsFromQuery (query : String) : List String :=
  let queryLower := (strLower query).data
  let cleaned := questionPatterns.foldl (fun acc m => replaceScan m acc) queryLower
  let noPunct := cleaned.filter
    (fun c => ¬(c = '?' ∨ c = '.' ∨ c = ',' ∨ c = '!'))
  let words := (splitWsRuns noPunct).map String.mk
  words.filter (fun w => 2 < w.length ∧ ¬ stopWords.contains w)

/-- `hay.includes(pat)` on strings (substring containment), on character
lists. -/
def containsSub (hay pat : List Char) : Bool :=
  (List.range (hay.length + 1)).any (fun i => List.isPrefixOf pat (hay.drop i))

/-- The pure core of `RAGEngine.searchRelevantChunks` (the query embedding
is produced by the external provider, and `results` is the list the vector
store's `search` returned for it): drop results below the similarity
threshold, convert to chunks, and apply the topic guard — if the query
yields topic tokens, keep only chunks whose document name or content
contains one (case-insensitively), returning the empty list when none
does; with no topic tokens, return the threshold-filtered chunks. -/
noncomputable def searchRelevantChunks (cfg : RAGEngineConfig)
    (query : String) (results : List VectorStore.SearchResult) :
    List DocumentChunk :=
  let chunks := (results.filter
    (fun r => decide (((cfg.similarityThreshold : ℚ) : ℝ) ≤ r.score))).map
    vectorEntryToChunk
  let queryTopics := extractTopicsFromQuery query
  if queryTopics.length > 0 then
    let filteredChunks := chunks.filter (fun chunk =>
      let docNameLower := strLower chunk.metadata.documentName
      let contentLower := strLower chunk.content
      queryTopics.any (fun topic =>
        containsSub docNameLower.data topic.data ||
        containsSub contentLower.data topic.data))
    if filteredChunks.length > 0 then filteredChunks else []
  else
    chunks

/-- `RAGEngine.calculateConfidence`: `0.1` with no chunks, otherwise
`0.4 + min(count / topK, 1) * 0.5`. -/
def calculateConfidence (cfg : RAGEngineConfig)
    (chunks : List DocumentChunk) : ℚ :=
  if chunks.length = 0 then 0.1
  else
    let countFactor := min ((chunks.length : ℚ) / (cfg.topK : ℚ)) 1
    0.4 + countFactor * 0.5

end RagEngine

namespace QueryProcessor

/-- A chat message (`ChatMessage` in `shared/types`, the fields
`queryProcessor.ts` uses). -/
structure ChatMessage where
  role : String
  content : String
  deriving DecidableEq

/-- A conversation session (`ConversationSession`, the field used). -/
structure ConversationSession where
  messages : List ChatMessage

/-- The assembled context (`QueryContext`). -/
structure QueryContext where
  conversationHistory : List ChatMessage
  relevantDocuments : List RagEngine.DocumentChunk
  systemPrompt : String

/-- `AssembleContextOptions`; absent optional fields are `none`. -/
structure AssembleContextOptions where
  maxDocumentChunks : Option Nat
  customSystemPrompt : Option String

/-- `DEFAULT_SYSTEM_PROMPT` from `queryProcessor.ts`. -/
def DEFAULT_SYSTEM_PROMPT : String :=
  "You are a helpful Technical Assistant designed to help junior engineers and interns with technical questions.\n\nYour responsibilities:\n- Provide accurate, clear technical explanations\n- Include code examples when relevant, with proper syntax highlighting\n- Reference source documents when available\n- If you\x27re uncertain about something, clearly indicate that and suggest consulting a senior engineer\n- Be encouraging and supportive - remember your audience is learning\n\nGuidelines:\n- Format responses using Markdown for readability\n- Use code blocks with language identifiers for code examples\n- Break down complex concepts into digestible parts\n- Provide context for why something works, not just how"

/-- `buildSystemPrompt`: the base prompt alone when no documents were
retrieved, otherwise the base prompt with the knowledge-base context block
(each chunk rendered as `[Source N: name]` plus its content) appended. -/
def buildSystemPrompt (basePrompt : String)
    (documents : List RagEngine.DocumentChunk) : String :=
  if documents.length = 0 then basePrompt
  else
    let documentContext := String.intercalate "\n\n"
      (documents.enum.map (fun p =>
        "[Source " ++ toString (p.1 + 1) ++ ": " ++
          p.2.metadata.documentName ++ "]\n" ++ p.2.content))
    basePrompt ++
      "\n\n---\nAVAILABLE KNOWLEDGE BASE CONTEXT:\nThe following excerpts from team documentation may be relevant to the user\x27s question.\nReference these sources when applicable and cite them in your response.\n\n" ++
      documentContext ++ "\n---"

/-- `assembleContext` from `queryProcessor.ts`.  The session and document
providers are parameters (awaited calls are modelled as pure functions);
`if (sessionId)` and `customSystemPrompt || DEFAULT_SYSTEM_PROMPT` treat
the empty string as falsy, which the model spells out. -/
def assembleContext (sessionId : Option String) (query : String)
    (sessionProvider : String → Option ConversationSession)
    (documentProvider : Option (String → Nat → List RagEngine.DocumentChunk))
    (options : AssembleContextOptions) : QueryContext :=
  let maxDocumentChunks := options.maxDocumentChunks.getD 5
  let conversationHistory :=
    match sessionId with
    | some sid =>
      if sid = "" then []
      else
        match sessionProvider sid with
        | some session => session.messages
        | none => []
    | none => []
  let relevantDocuments :=
    match documentProvider with
    | some dp => dp query maxDocumentChunks
    | none => []
  let basePrompt :=
    match options.customSystemPrompt with
    | some c => if c = "" then DEFAULT_SYSTEM_PROMPT else c
    | none => DEFAULT_SYSTEM_PROMPT
  let systemPrompt := buildSystemPrompt basePrompt relevantDocuments
  ⟨conversationHistory, relevantDocuments, systemPrompt⟩

/-- The base prompt `assembleContext` hands to `buildSystemPrompt`: the
caller's custom prompt when supplied and truthy (non-empty), the default
template otherwise. -/
def basePromptOf (options : AssembleContextOptions) : String :=
  match options.customSystemPrompt with
  | some c => if c = "" then DEFAULT_SYSTEM_PROMPT else c
  | none => DEFAULT_SYSTEM_PROMPT

end QueryProcessor

/-! Concrete fixtures used to instantiate proved theorems on closed
inputs. -/

/-- A concrete chunk metadata value. -/
def sampleMetadata : RagEngine.ChunkMetadata :=
  ⟨"alpha-guide", 0, none⟩

/-- A concrete document chunk. -/
def sampleChunk : RagEngine.DocumentChunk :=
  ⟨"c1", "doc-alpha", "alpha setup notes", [], sampleMetadata⟩

/-- A concrete two-dimensional vector entry. -/
def entryDim2 : VectorStore.VectorEntry :=
  ⟨"e1", "docA", 0, "alpha content", [1, 2], ⟨"alpha-guide", none⟩⟩

/-- A concrete three-dimensional vector entry for the same document. -/
def entryDim3 : VectorStore.VectorEntry :=
  ⟨"e2", "docA", 1, "beta content", [1, 2, 3], ⟨"beta-guide", none⟩⟩

/-- A concrete fresh entry for re-indexing document `docA`. -/
def entryFreshA : VectorStore.VectorEntry :=
  ⟨"f1", "docA", 0, "fresh", [1, 2], ⟨"alpha-guide", none⟩⟩

/-- A concrete entry with id `x` belonging to document `A`. -/
def entryXA : VectorStore.VectorEntry :=
  ⟨"x", "A", 0, "", [], ⟨"nA", none⟩⟩

/-- A concrete entry with the same id `x` but belonging to document
`B`. -/
def entryXB : VectorStore.VectorEntry :=
  ⟨"x", "B", 0, "", [], ⟨"nB", none⟩⟩

namespace VectorStore

/-! Lemmas about the association-list model of `Map` and `Set`. -/

theorem keys_cons {α : Type} (p : String × α) (rest : List (String × α)) :
    keys (p :: rest) = p.1 :: keys rest :=
  rfl

theorem alookup_eq_none {α : Type} (m : List (String × α)) (k : String) :
    alookup m k = none ↔ k ∉ keys m := by
  induction m with
  | nil => simp [alookup, keys]
  | cons p rest ih =>
    by_cases h : p.1 = k
    · simp [alookup, h, keys_cons]
    · have h2 : alookup (p :: rest) k = alookup rest k := by
        simp [alookup, h]
      have h3 : ¬ (k = p.1) := fun hh => h hh.symm
      rw [h2, ih, keys_cons]
      simp [List.mem_cons, h3]

theorem alookup_append_none {α : Type} {m : List (String × α)} {k : String}
    (h : alookup m k = none) (m2 : List (String × α)) :
    alookup (m ++ m2) k = alookup m2 k := by
  induction m with
  | nil => simp
  | cons p rest ih =>
    simp only [alookup] at h ⊢
    by_cases hp : p.1 = k
    · simp [hp] at h
    · simp only [if_neg hp] at h ⊢
      exact ih h

theorem alookup_mapInplace {α : Type} (m : List (String × α)) (k : String)
    (v : α) :
    alookup (m.map (fun p => if p.1 = k then (k, v) else p)) k =
      (alookup m k).map (fun _ => v) := by
  induction m with
  | nil => simp [alookup]
  | cons p rest ih =>
    by_cases hp : p.1 = k
    · simp [alookup, hp]
    · simp only [List.map_cons, if_neg hp, alookup, ih]

theorem alookup_mapSet_self {α : Type} (m : List (String × α)) (k : String)
    (v : α) : alookup (mapSet m k v) k = some v := by
  unfold mapSet
  by_cases h : (alookup m k).isSome
  · rw [if_pos h, alookup_mapInplace]
    obtain ⟨w, hw⟩ := Option.isSome_iff_exists.mp h
    rw [hw]
    rfl
  · rw [if_neg h]
    have hn : alookup m k = none := Option.not_isSome_iff_eq_none.mp h
    rw [alookup_append_none hn]
    simp [alookup]

theorem alookup_mapInplace_ne {α : Type} (m : List (String × α))
    {k k' : String} (v : α) (h : k' ≠ k) :
    alookup (m.map (fun p => if p.1 = k then (k, v) else p)) k' =
      alookup m k' := by
  induction m with
  | nil => simp [alookup]
  | cons p rest ih =>
    by_cases hq : p.1 = k
    · have h1 : ¬ ((k : String) = k') := fun hh => h hh.symm
      have h2 : ¬ (p.1 = k') := fun hh => h (hq ▸ hh).symm
      simp only [List.map_cons, if_pos hq, alookup, if_neg h1, if_neg h2, ih]
    · simp only [List.map_cons, if_neg hq, alookup]
      by_cases hr : p.1 = k'
      · simp [hr]
      · simp only [if_neg hr, ih]

theorem alookup_append_single_ne {α : Type} (m : List (String × α))
    {k k' : String} (v : α) (h : k' ≠ k) :
    alookup (m ++ [(k, v)]) k' = alookup m k' := by
  induction m with
  | nil =>
    have h2 : ¬ ((k : String) = k') := fun hh => h hh.symm
    simp [alookup, h2]
  | cons p rest ih =>
    show (if p.1 = k' then some p.2 else alookup (rest ++ [(k, v)]) k') =
      (if p.1 = k' then some p.2 else alookup rest k')
    by_cases hr : p.1 = k'
    · simp [hr]
    · rw [if_neg hr, if_neg hr, ih]

theorem alookup_mapSet_ne {α : Type} (m : List (String × α))
    {k k' : String} (v : α) (h : k' ≠ k) :
    alookup (mapSet m k v) k' = alookup m k' := by
  unfold mapSet
  by_cases hp : (alookup m k).isSome
  · rw [if_pos hp]
    exact alookup_mapInplace_ne m v h
  · rw [if_neg hp]
    exact alookup_append_single_ne m v h

theorem mapDelete_cons {α : Type} (p : String × α) (rest : List (String × α))
    (k : String) :
    mapDelete (p :: rest) k =
      if p.1 = k then mapDelete rest k else p :: mapDelete rest k := by
  by_cases hp : p.1 = k <;> simp [mapDelete, List.filter_cons, hp]

theorem alookup_mapDelete_self {α : Type} (m : List (String × α))
    (k : String) : alookup (mapDelete m k) k = none := by
  induction m with
  | nil => simp [mapDelete, alookup]
  | cons p rest ih =>
    rw [mapDelete_cons]
    by_cases hp : p.1 = k
    · rw [if_pos hp]
      exact ih
    · rw [if_neg hp]
      simp only [alookup, if_neg hp]
      exact ih

theorem alookup_mapDelete_ne {α : Type} (m : List (String × α))
    {k k' : String} (h : k' ≠ k) :
    alookup (mapDelete m k) k' = alookup m k' := by
  induction m with
  | nil => simp [mapDelete]
  | cons p rest ih =>
    rw [mapDelete_cons]
    by_cases hp : p.1 = k
    · rw [if_pos hp]
      have hr : ¬ (p.1 = k') := fun hh => h (hh ▸ hp ▸ rfl : k' = k)
      simp only [alookup, if_neg hr]
      exact ih
    · rw [if_neg hp]
      simp only [alookup]
      by_cases hr : p.1 = k'
      · simp [hr]
      · simp only [if_neg hr]
        exact ih

theorem alookup_mapUpdate_self {α : Type} (m : List (String × α))
    (k : String) (f : α → α) :
    alookup (mapUpdate m k f) k = (alookup m k).map f := by
  induction m with
  | nil => simp [mapUpdate, alookup]
  | cons p rest ih =>
    by_cases hp : p.1 = k
    · simp [mapUpdate, alookup, hp]
    · simp only [mapUpdate, List.map_cons, if_neg hp, alookup] at ih ⊢
      exact ih

theorem alookup_mapUpdate_ne {α : Type} (m : List (String × α))
    {k k' : String} (f : α → α) (h : k' ≠ k) :
    alookup (mapUpdate m k f) k' = alookup m k' := by
  induction m with
  | nil => simp [mapUpdate, alookup]
  | cons p rest ih =>
    by_cases hp : p.1 = k
    · have hr : ¬ (p.1 = k') := fun hh => h (hh ▸ hp ▸ rfl : k' = k)
      simp only [mapUpdate, List.map_cons, if_pos hp, alookup, if_neg hr] at ih ⊢
      exact ih
    · simp only [mapUpdate, List.map_cons, if_neg hp, alookup] at ih ⊢
      by_cases hr : p.1 = k'
      · simp [hr]
      · rw [if_neg hr, if_neg hr]
        exact ih

theorem keys_mapUpdate {α : Type} (m : List (String × α)) (k : String)
    (f : α → α) : keys (mapUpdate m k f) = keys m := by
  induction m with
  | nil => rfl
  | cons p rest ih =>
    by_cases hp : p.1 = k
    · simp only [mapUpdate, List.map_cons, if_pos hp, keys_cons]
      simp only [mapUpdate] at ih
      rw [ih]
    · simp only [mapUpdate, List.map_cons, if_neg hp, keys_cons]
      simp only [mapUpdate] at ih
      rw [ih]

theorem keys_mapInplace {α : Type} (m : List (String × α)) (k : String)
    (v : α) :
    keys (m.map (fun p => if p.1 = k then (k, v) else p)) = keys m := by
  induction m with
  | nil => rfl
  | cons p rest ih =>
    by_cases hp : p.1 = k
    · simp only [List.map_cons, if_pos hp, keys_cons]
      rw [ih, hp]
    · simp only [List.map_cons, if_neg hp, keys_cons]
      rw [ih]

theorem keys_mapSet_present {α : Type} (m : List (String × α)) (k : String)
    (v : α) (h : (alookup m k).isSome) : keys (mapSet m k v) = keys m := by
  unfold mapSet
  rw [if_pos h]
  exact keys_mapInplace m k v

theorem keys_mapSet_absent {α : Type} (m : List (String × α)) (k : String)
    (v : α) (h : ¬ (alookup m k).isSome) :
    keys (mapSet m k v) = keys m ++ [k] := by
  unfold mapSet
  rw [if_neg h]
  simp [keys]

theorem nodup_keys_mapSet {α : Type} (m : List (String × α)) (k : String)
    (v : α) (h : (keys m).Nodup) : (keys (mapSet m k v)).Nodup := by
  by_cases hp : (alookup m k).isSome
  · rw [keys_mapSet_present m k v hp]
    exact h
  · rw [keys_mapSet_absent m k v hp]
    have hk : k ∉ keys m := by
      rw [← alookup_eq_none]
      exact Option.not_isSome_iff_eq_none.mp hp
    simp [List.nodup_append, h, hk]

theorem nodup_keys_mapDelete {α : Type} (m : List (String × α)) (k : String)
    (h : (keys m).Nodup) : (keys (mapDelete m k)).Nodup := by
  have hs : List.Sublist (mapDelete m k) m := List.filter_sublist m
  have hs2 : List.Sublist (keys (mapDelete m k)) (keys m) := by
    unfold keys
    exact List.Sublist.map (fun p => p.1) hs
  exact List.Nodup.sublist hs2 h

theorem nodup_keys_mapUpdate {α : Type} (m : List (String × α)) (k : String)
    (f : α → α) (h : (keys m).Nodup) : (keys (mapUpdate m k f)).Nodup := by
  rw [keys_mapUpdate]
  exact h

theorem mem_setAdd {s : List String} {x y : String} :
    y ∈ setAdd s x ↔ y ∈ s ∨ y = x := by
  by_cases h : x ∈ s
  · simp only [setAdd, if_pos h]
    constructor
    · exact Or.inl
    · rintro (hy | rfl)
      · exact hy
      · exact h
  · simp [setAdd, if_neg h, List.mem_append]

theorem setAdd_nodup {s : List String} {x : String} (h : s.Nodup) :
    (setAdd s x).Nodup := by
  by_cases hx : x ∈ s
  · simpa [setAdd, if_pos hx] using h
  · simp [setAdd, if_neg hx, List.nodup_append, h, hx]

theorem setAdd_ne_nil {s : List String} {x : String} : setAdd s x ≠ [] := by
  by_cases hx : x ∈ s
  · simp only [setAdd, if_pos hx]
    intro hs
    rw [hs] at hx
    exact absurd hx (List.not_mem_nil x)
  · simp [setAdd, if_neg hx]

theorem mem_setRemove {s : List String} {x y : String} :
    y ∈ setRemove s x ↔ y ∈ s ∧ y ≠ x := by
  simp [setRemove, List.mem_filter]

theorem setRemove_nodup {s : List String} {x : String} (h : s.Nodup) :
    (setRemove s x).Nodup :=
  List.Nodup.sublist (List.filter_sublist s) h

theorem alookup_mem {α : Type} {m : List (String × α)} {k : String} {v : α}
    (h : alookup m k = some v) : (k, v) ∈ m := by
  induction m with
  | nil => simp [alookup] at h
  | cons p rest ih =>
    simp only [alookup] at h
    by_cases hp : p.1 = k
    · rw [if_pos hp] at h
      injection h with hv
      have hpe : p = (k, v) := by
        cases p with
        | mk a b =>
          simp only at hp hv
          rw [hp, hv]
      rw [hpe]
      exact List.mem_cons_self _ _
    · rw [if_neg hp] at h
      exact List.mem_cons_of_mem p (ih h)

theorem mem_alookup {α : Type} {m : List (String × α)} {k : String} {v : α}
    (hnd : (keys m).Nodup) (h : (k, v) ∈ m) : alookup m k = some v := by
  induction m with
  | nil => exact absurd h (List.not_mem_nil (k, v))
  | cons p rest ih =>
    rw [keys_cons] at hnd
    rcases List.mem_cons.mp h with heq | hmem
    · rw [← heq]
      simp [alookup]
    · have hk : k ∈ keys rest := by
        exact List.mem_map_of_mem (·.1) hmem
      have hp : ¬ (p.1 = k) := by
        intro hkp
        exact (List.nodup_cons.mp hnd).1 (hkp ▸ hk)
      simp only [alookup, if_neg hp]
      exact ih (List.nodup_cons.mp hnd).2 hmem

end VectorStore

section ConfidenceProofs

open RagEngine

/-- C2: `calculateConfidence` yields exactly `0.1` iff no chunks were
retrieved; with chunks it equals `0.4 + min(count / topK, 1) * 0.5`, lies
in `[0.4, 0.9]`, strictly increases with the chunk count up to `topK`, and
is capped at `0.9` from `topK` chunks on. -/
theorem calculateConfidence_spec (cfg : RAGEngineConfig)
    (htopK : 1 ≤ cfg.topK) :
    (∀ chunks : List DocumentChunk,
      (calculateConfidence cfg chunks = 0.1 ↔ chunks.length = 0)) ∧
    (∀ chunks : List DocumentChunk, chunks.length ≠ 0 →
      calculateConfidence cfg chunks
          = 0.4 + min ((chunks.length : ℚ) / (cfg.topK : ℚ)) 1 * 0.5 ∧
        0.4 ≤ calculateConfidence cfg chunks ∧
        calculateConfidence cfg chunks ≤ 0.9) ∧
    (∀ c1 c2 : List DocumentChunk, 0 < c1.length → c1.length < c2.length →
      c2.length ≤ cfg.topK →
      calculateConfidence cfg c1 < calculateConfidence cfg c2) ∧
    (∀ chunks : List DocumentChunk, cfg.topK ≤ chunks.length →
      calculateConfidence cfg chunks = 0.9) := by
  have hK : (0 : ℚ) < (cfg.topK : ℚ) := by
    exact_mod_cast Nat.lt_of_lt_of_le Nat.zero_lt_one htopK
  have formula : ∀ chunks : List DocumentChunk, chunks.length ≠ 0 →
      calculateConfidence cfg chunks
        = 0.4 + min ((chunks.length : ℚ) / (cfg.topK : ℚ)) 1 * 0.5 := by
    intro chunks h
    unfold calculateConfidence
    rw [if_neg h]
  have bounds : ∀ chunks : List DocumentChunk, chunks.length ≠ 0 →
      0.4 ≤ calculateConfidence cfg chunks ∧
        calculateConfidence cfg chunks ≤ 0.9 := by
    intro chunks h
    rw [formula chunks h]
    have h0 : (0 : ℚ) ≤ (chunks.length : ℚ) / (cfg.topK : ℚ) :=
      div_nonneg (Nat.cast_nonneg _) (le_of_lt hK)
    have hmin0 : (0 : ℚ) ≤ min ((chunks.length : ℚ) / (cfg.topK : ℚ)) 1 :=
      le_min h0 (by norm_num)
    have hmin1 : min ((chunks.length : ℚ) / (cfg.topK : ℚ)) 1 ≤ 1 :=
      min_le_right _ _
    constructor <;> nlinarith
  refine ⟨?_, ?_, ?_, ?_⟩
  · intro chunks
    constructor
    · intro h
      by_contra hne
      have hb := (bounds chunks hne).1
      rw [h] at hb
      norm_num at hb
    · intro h
      unfold calculateConfidence
      rw [if_pos h]
  · intro chunks h
    exact ⟨formula chunks h, bounds chunks h⟩
  · intro c1 c2 h1 h12 h2K
    have hn1 : c1.length ≠ 0 := Nat.pos_iff_ne_zero.mp h1
    have hn2 : c2.length ≠ 0 := by omega
    rw [formula c1 hn1, formula c2 hn2]
    have hc1 : (c1.length : ℚ) / (cfg.topK : ℚ) ≤ 1 := by
      rw [div_le_one hK]
      exact_mod_cast Nat.le_of_lt (Nat.lt_of_lt_of_le h12 h2K)
    have hc2 : (c2.length : ℚ) / (cfg.topK : ℚ) ≤ 1 := by
      rw [div_le_one hK]
      exact_mod_cast h2K
    rw [min_eq_left hc1, min_eq_left hc2]
    have hlt : (c1.length : ℚ) / (cfg.topK : ℚ) <
        (c2.length : ℚ) / (cfg.topK : ℚ) := by
      rw [div_lt_div_iff₀ hK hK]
      have hcast : (c1.length : ℚ) < (c2.length : ℚ) := by exact_mod_cast h12
      nlinarith
    nlinarith
  · intro chunks hK2
    have hn : chunks.length ≠ 0 := by omega
    rw [formula chunks hn]
    have h1 : (1 : ℚ) ≤ (chunks.length : ℚ) / (cfg.topK : ℚ) := by
      rw [le_div_iff₀ hK]
      simpa using (by exact_mod_cast hK2 :
        (cfg.topK : ℚ) ≤ (chunks.length : ℚ))
    rw [min_eq_right h1]
    norm_num

/-- C2 witness: at the default configuration, zero chunks give confidence
`0.1` and five chunks (the `topK` default) give the cap `0.9`. -/
theorem calculateConfidence_spec_witness :
    calculateConfidence DEFAULT_RAG_CONFIG [] = 0.1 ∧
    calculateConfidence DEFAULT_RAG_CONFIG
      [sampleChunk, sampleChunk, sampleChunk, sampleChunk, sampleChunk]
      = 0.9 :=
  ⟨((calculateConfidence_spec DEFAULT_RAG_CONFIG (by decide)).1 []).mpr rfl,
    (calculateConfidence_spec DEFAULT_RAG_CONFIG (by decide)).2.2.2
      [sampleChunk, sampleChunk, sampleChunk, sampleChunk, sampleChunk]
      (by decide)⟩

end ConfidenceProofs

section CosineProofs

open VectorStore

/-- Sum of the element-wise products of two zipped vectors is symmetric. -/
theorem zipMulSum_comm (a b : List ℝ) :
    ((a.zip b).map (fun p => p.1 * p.2)).sum =
      ((b.zip a).map (fun p => p.1 * p.2)).sum := by
  induction a generalizing b with
  | nil => cases b <;> simp
  | cons x xs ih =>
    cases b with
    | nil => simp
    | cons y ys => simp [ih ys, mul_comm]

/-- Zipping a vector with itself multiplies each element by itself. -/
theorem zip_self_map (a : List ℝ) :
    (a.zip a).map (fun p => p.1 * p.2) = a.map (fun x => x * x) := by
  induction a with
  | nil => rfl
  | cons x xs ih => simp [ih]

/-- A sum of squares is non-negative. -/
theorem sumSq_nonneg (a : List ℝ) : 0 ≤ (a.map (fun x => x * x)).sum := by
  apply List.sum_nonneg
  intro x hx
  obtain ⟨y, _, rfl⟩ := List.mem_map.mp hx
  exact mul_self_nonneg y

/-- A sum of squares vanishes exactly when every element vanishes. -/
theorem sumSq_eq_zero_iff (a : List ℝ) :
    (a.map (fun x => x * x)).sum = 0 ↔ ∀ x ∈ a, x = 0 := by
  induction a with
  | nil => simp
  | cons x xs ih =>
    simp only [List.map_cons, List.sum_cons]
    constructor
    · intro h
      have h1 : 0 ≤ x * x := mul_self_nonneg x
      have h2 : 0 ≤ (xs.map (fun x => x * x)).sum := sumSq_nonneg xs
      have hx : x * x = 0 := by linarith
      have hs : (xs.map (fun x => x * x)).sum = 0 := by linarith
      intro y hy
      rcases List.mem_cons.mp hy with rfl | hmem
      · exact mul_self_eq_zero.mp hx
      · exact (ih.mp hs) y hmem
    · intro h
      have hx : x = 0 := h x (List.mem_cons_self x xs)
      have hs : (xs.map (fun x => x * x)).sum = 0 :=
        ih.mpr (fun y hy => h y (List.mem_cons_of_mem x hy))
      rw [hx, hs]
      ring

/-- C7: `cosineSimilarity` is symmetric on equal-length vectors, scores a
non-zero vector against itself as exactly `1`, and scores `0` whenever
either vector is all-zero (zero magnitude). -/
theorem cosineSimilarity_algebra :
    (∀ a b : List ℝ, a.length = b.length →
      cosineSimilarity a b = cosineSimilarity b a) ∧
    (∀ a : List ℝ, (∃ x ∈ a, x ≠ 0) → cosineSimilarity a a = .ok 1) ∧
    (∀ a b : List ℝ, a.length = b.length →
      ((∀ x ∈ a, x = 0) ∨ (∀ x ∈ b, x = 0)) →
      cosineSimilarity a b = .ok 0) := by
  refine ⟨?_, ?_, ?_⟩
  · intro a b h
    simp only [cosineSimilarity]
    rw [if_neg (by omega : ¬ a.length ≠ b.length),
      if_neg (by omega : ¬ b.length ≠ a.length)]
    by_cases h0 : a.length = 0
    · have hb0 : b.length = 0 := by omega
      rw [if_pos h0, if_pos hb0]
    · have hb0 : ¬ b.length = 0 := by omega
      rw [if_neg h0, if_neg hb0, zipMulSum_comm a b,
        mul_comm (Real.sqrt ((a.map (fun x => x * x)).sum))
          (Real.sqrt ((b.map (fun x => x * x)).sum))]
  · intro a ha
    obtain ⟨x, hx, hxne⟩ := ha
    have hne : ¬ a.length = 0 := by
      cases a with
      | nil => exact absurd hx (List.not_mem_nil x)
      | cons y ys => simp
    have hs0 : (a.map (fun x => x * x)).sum ≠ 0 := by
      rw [Ne, sumSq_eq_zero_iff]
      intro hall
      exact hxne (hall x hx)
    simp only [cosineSimilarity]
    rw [if_neg (by omega : ¬ a.length ≠ a.length), if_neg hne, zip_self_map a,
      Real.mul_self_sqrt (sumSq_nonneg a), if_neg hs0, div_self hs0]
  · intro a b h hzero
    simp only [cosineSimilarity]
    rw [if_neg (by omega : ¬ a.length ≠ b.length)]
    by_cases h0 : a.length = 0
    · rw [if_pos h0]
    · have hb0 : ¬ b.length = 0 := by omega
      rw [if_neg h0]
      have hmag : Real.sqrt ((a.map (fun x => x * x)).sum) *
          Real.sqrt ((b.map (fun x => x * x)).sum) = 0 := by
        rcases hzero with hza | hzb
        · rw [(sumSq_eq_zero_iff a).mpr hza, Real.sqrt_zero, zero_mul]
        · rw [(sumSq_eq_zero_iff b).mpr hzb, Real.sqrt_zero, mul_zero]
      rw [if_pos hmag]

/-- C7 witness: symmetry at `[1, 2]` and `[3, 4]`, self-similarity `1` at
`[3]`, and score `0` against the zero vector `[0]`. -/
theorem cosineSimilarity_algebra_witness :
    cosineSimilarity [(1 : ℝ), 2] [3, 4] = cosineSimilarity [3, 4] [(1 : ℝ), 2] ∧
    cosineSimilarity [(3 : ℝ)] [(3 : ℝ)] = .ok 1 ∧
    cosineSimilarity [(0 : ℝ)] [(5 : ℝ)] = .ok 0 :=
  ⟨cosineSimilarity_algebra.1 [1, 2] [3, 4] rfl,
    cosineSimilarity_algebra.2.1 [3]
      ⟨3, List.mem_singleton.mpr rfl, by norm_num⟩,
    cosineSimilarity_algebra.2.2 [0] [5] rfl
      (Or.inl (fun x hx => by simpa using hx))⟩

end CosineProofs

section ContextProofs

open QueryProcessor

/-- C6 counterexample: with a caller-supplied custom prompt and one
retrieved chunk, `assembleContext` does not return the custom prompt as
the system prompt — the knowledge-base context section is appended to it,
contradicting the claimed bypass. -/
theorem assembleContext_custom_prompt_counterexample :
    (assembleContext none "query" (fun _ => none)
        (some (fun _ _ => [sampleChunk]))
        ⟨none, some "Custom prompt."⟩).systemPrompt ≠ "Custom prompt." := by
  decide

/-- C6 (amended): `assembleContext` uses the custom prompt only as the
base template.  When no chunks are retrieved, the base (hence a non-empty
custom prompt) is returned unchanged; when chunks are retrieved, the
knowledge-base context section is appended to the base — also to a custom
one, so the override does not bypass augmentation. -/
theorem assembleContext_prompt_spec (sessionId : Option String)
    (query : String)
    (sessionProvider : String → Option ConversationSession)
    (documentProvider : Option (String → Nat → List RagEngine.DocumentChunk))
    (options : AssembleContextOptions) :
    ((assembleContext sessionId query sessionProvider documentProvider
        options).relevantDocuments = [] →
      (assembleContext sessionId query sessionProvider documentProvider
        options).systemPrompt = basePromptOf options) ∧
    ((assembleContext sessionId query sessionProvider documentProvider
        options).relevantDocuments ≠ [] →
      (assembleContext sessionId query sessionProvider documentProvider
          options).systemPrompt =
        basePromptOf options ++
          "\n\n---\nAVAILABLE KNOWLEDGE BASE CONTEXT:\nThe following excerpts from team documentation may be relevant to the user\x27s question.\nReference these sources when applicable and cite them in your response.\n\n" ++
          String.intercalate "\n\n"
            ((assembleContext sessionId query sessionProvider
                documentProvider options).relevantDocuments.enum.map
              (fun p => "[Source " ++ toString (p.1 + 1) ++ ": " ++
                p.2.metadata.documentName ++ "]\n" ++ p.2.content)) ++
          "\n---" ∧
      (assembleContext sessionId query sessionProvider documentProvider
        options).systemPrompt ≠ basePromptOf options) := by
  have hmain : (assembleContext sessionId query sessionProvider
      documentProvider options).systemPrompt =
      buildSystemPrompt (basePromptOf options)
        (assembleContext sessionId query sessionProvider documentProvider
          options).relevantDocuments := rfl
  constructor
  · intro hdocs
    rw [hmain, hdocs]
    rfl
  · intro hdocs
    have hlen : ¬ ((assembleContext sessionId query sessionProvider
        documentProvider options).relevantDocuments.length = 0) := by
      intro h
      exact hdocs (List.length_eq_zero.mp h)
    constructor
    · rw [hmain]
      unfold buildSystemPrompt
      rw [if_neg hlen]
    · rw [hmain]
      unfold buildSystemPrompt
      rw [if_neg hlen]
      intro heq
      have hlens := congrArg String.length heq
      simp only [String.length_append] at hlens
      have h4 : ("\n---" : String).length = 4 := by decide
      omega

/-- C6 witness for the amended theorem: with no document provider the
custom prompt comes back verbatim. -/
theorem assembleContext_prompt_spec_witness :
    (assembleContext none "q" (fun _ => none) none
      ⟨none, some "Custom prompt."⟩).systemPrompt = "Custom prompt." :=
  ((assembleContext_prompt_spec none "q" (fun _ => none) none
    ⟨none, some "Custom prompt."⟩).1 rfl).trans (by decide)

end ContextProofs

section TopicGuardProofs

open RagEngine

/-- C1: `searchRelevantChunks` keeps only results at or above the
similarity threshold; when the topic tokens extracted from the query are
non-empty it returns exactly the threshold-passing chunks whose document
name or content contains (case-insensitively) some token — in particular
the empty list when no chunk contains any token — and when the token set
is empty it returns the threshold-filtered chunks unchanged. -/
theorem searchRelevantChunks_topic_guard (cfg : RAGEngineConfig)
    (query : String) (results : List VectorStore.SearchResult) :
    (extractTopicsFromQuery query ≠ [] →
      searchRelevantChunks cfg query results =
        ((results.filter (fun r =>
            decide (((cfg.similarityThreshold : ℚ) : ℝ) ≤ r.score))).map
          vectorEntryToChunk).filter (fun chunk =>
            (extractTopicsFromQuery query).any (fun topic =>
              containsSub (strLower chunk.metadata.documentName).data
                topic.data ||
              containsSub (strLower chunk.content).data topic.data))) ∧
    (extractTopicsFromQuery query ≠ [] →
      (∀ chunk ∈ (results.filter (fun r =>
          decide (((cfg.similarityThreshold : ℚ) : ℝ) ≤ r.score))).map
            vectorEntryToChunk,
        ¬ ((extractTopicsFromQuery query).any (fun topic =>
          containsSub (strLower chunk.metadata.documentName).data topic.data ||
          containsSub (strLower chunk.content).data topic.data) = true)) →
      searchRelevantChunks cfg query results = []) ∧
    (extractTopicsFromQuery query = [] →
      searchRelevantChunks cfg query results =
        (results.filter (fun r =>
          decide (((cfg.similarityThreshold : ℚ) : ℝ) ≤ r.score))).map
          vectorEntryToChunk) := by
  have hguard : extractTopicsFromQuery query ≠ [] →
      searchRelevantChunks cfg query results =
        ((results.filter (fun r =>
            decide (((cfg.similarityThreshold : ℚ) : ℝ) ≤ r.score))).map
          vectorEntryToChunk).filter (fun chunk =>
            (extractTopicsFromQuery query).any (fun topic =>
              containsSub (strLower chunk.metadata.documentName).data
                topic.data ||
              containsSub (strLower chunk.content).data topic.data)) := by
    intro ht
    have hlen : 0 < (extractTopicsFromQuery query).length :=
      List.length_pos.mpr ht
    simp only [searchRelevantChunks]
    rw [if_pos hlen]
    by_cases hf : 0 < (((results.filter (fun r =>
        decide (((cfg.similarityThreshold : ℚ) : ℝ) ≤ r.score))).map
          vectorEntryToChunk).filter (fun chunk =>
            (extractTopicsFromQuery query).any (fun topic =>
              containsSub (strLower chunk.metadata.documentName).data
                topic.data ||
              containsSub (strLower chunk.content).data topic.data))).length
    · rw [if_pos hf]
    · rw [if_neg hf]
      have hnil := List.length_eq_zero.mp (Nat.eq_zero_of_not_pos hf)
      rw [hnil]
  refine ⟨hguard, ?_, ?_⟩
  · intro ht hnone
    rw [hguard ht]
    exact List.filter_eq_nil_iff.mpr (fun chunk hc => by
      simpa using hnone chunk hc)
  · intro ht
    simp only [searchRelevantChunks]
    rw [if_neg (by rw [ht]; simp)]

/-- C1 witness: the query `tell me about nebvla` yields the topic token
`nebvla`; with no search results the guard returns the empty list, and
with a single above-threshold result about an unrelated document it also
returns the empty list. -/
theorem searchRelevantChunks_topic_guard_witness :
    extractTopicsFromQuery "tell me about nebvla" = ["nebvla"] ∧
    searchRelevantChunks DEFAULT_RAG_CONFIG "tell me about nebvla" [] = [] :=
  ⟨by decide,
    by
      rw [(searchRelevantChunks_topic_guard DEFAULT_RAG_CONFIG
        "tell me about nebvla" []).1 (by decide)]
      rfl⟩

end TopicGuardProofs

section DimensionProofs

open VectorStore

/-- C3 counterexample: `add` performs no dimension check.  Adding a
3-dimensional entry to a store already holding a 2-dimensional entry does
not fail with a dimension-mismatch error — the entry is stored (the store
grows to two entries and returns the mismatched entry by id). -/
theorem add_dimension_counterexample :
    size (add (add emptyStore entryDim2) entryDim3) = 2 ∧
    get (add (add emptyStore entryDim2) entryDim3) "e2" = some entryDim3 :=
  ⟨rfl, rfl⟩

/-- C3 (amended): the dimension guard lives on the search path only.
`add` stores any entry unconditionally (no dimension validation), while
`search` on a non-empty store whose entries all have dimension `d` fails
with the dimension-mismatch error for every query vector of a different
length, instead of computing a partial dot product. -/
theorem search_dimension_spec :
    (∀ (st : InMemoryVectorStore) (e : VectorEntry),
      get (add st e) e.id = some e) ∧
    (∀ (st : InMemoryVectorStore) (q : List ℝ) (limit d : Nat),
      st.entries ≠ [] →
      (∀ pr ∈ st.entries, pr.2.embedding.length = d) →
      q.length ≠ d →
      search st q limit =
        .error ("Vector dimension mismatch: " ++ toString q.length ++
          " vs " ++ toString d)) := by
  constructor
  · intro st e
    show alookup (mapSet st.entries e.id e) e.id = some e
    exact alookup_mapSet_self st.entries e.id e
  · intro st q limit d hne hall hq
    match hent : st.entries with
    | [] => exact absurd hent hne
    | p0 :: rest =>
      have hd0 : p0.2.embedding.length = d :=
        hall p0 (hent ▸ List.mem_cons_self p0 rest)
      have hcs : cosineSimilarity q p0.2.embedding =
          .error ("Vector dimension mismatch: " ++ toString q.length ++
            " vs " ++ toString d) := by
        unfold cosineSimilarity
        rw [if_pos (by rw [hd0]; exact hq), hd0]
      simp only [search, hent, List.mapM_cons, hcs]
      rfl

/-- C3 witness: `add` stores an entry retrievable by its id, and searching
a store holding one 2-dimensional entry with a 3-dimensional query vector
fails with the dimension-mismatch error. -/
theorem search_dimension_spec_witness :
    get (add emptyStore entryDim2) "e1" = some entryDim2 ∧
    search (add emptyStore entryDim2) [(1 : ℝ), 2, 3] 5 =
      .error "Vector dimension mismatch: 3 vs 2" := by
  constructor
  · exact search_dimension_spec.1 emptyStore entryDim2
  · have h := search_dimension_spec.2 (add emptyStore entryDim2)
      [(1 : ℝ), 2, 3] 5 2 (List.cons_ne_nil _ _)
      (fun pr hpr => by
        have hent : (add emptyStore entryDim2).entries =
            [("e1", entryDim2)] := rfl
        rw [hent] at hpr
        have hp : pr = ("e1", entryDim2) := by simpa using hpr
        rw [hp]
        rfl)
      (by decide)
    rw [h]
    exact congrArg Except.error (by decide)

end DimensionProofs

namespace VectorStore

/-! Lookup behaviour of `add` on the two internal maps. -/

theorem add_entries_lookup_self (st : InMemoryVectorStore) (e : VectorEntry) :
    alookup (add st e).entries e.id = some e := by
  show alookup (mapSet st.entries e.id e) e.id = some e
  exact alookup_mapSet_self st.entries e.id e

theorem add_entries_lookup_ne (st : InMemoryVectorStore) (e : VectorEntry)
    {id : String} (h : id ≠ e.id) :
    alookup (add st e).entries id = alookup st.entries id := by
  show alookup (mapSet st.entries e.id e) id = alookup st.entries id
  exact alookup_mapSet_ne st.entries e h

theorem add_docIndex_lookup_self (st : InMemoryVectorStore) (e : VectorEntry) :
    alookup (add st e).documentIndex e.documentId =
      some (setAdd ((alookup st.documentIndex e.documentId).getD []) e.id) := by
  by_cases hp : (alookup st.documentIndex e.documentId).isSome
  · obtain ⟨s, hs⟩ := Option.isSome_iff_exists.mp hp
    show alookup (mapUpdate
      (if (alookup st.documentIndex e.documentId).isSome then
        st.documentIndex
      else mapSet st.documentIndex e.documentId [])
      e.documentId (fun s => setAdd s e.id)) e.documentId = _
    rw [if_pos hp, alookup_mapUpdate_self, hs]
    rfl
  · have hn : alookup st.documentIndex e.documentId = none :=
      Option.not_isSome_iff_eq_none.mp hp
    show alookup (mapUpdate
      (if (alookup st.documentIndex e.documentId).isSome then
        st.documentIndex
      else mapSet st.documentIndex e.documentId [])
      e.documentId (fun s => setAdd s e.id)) e.documentId = _
    rw [if_neg hp, alookup_mapUpdate_self, alookup_mapSet_self, hn]
    rfl

theorem add_docIndex_lookup_ne (st : InMemoryVectorStore) (e : VectorEntry)
    {d : String} (h : d ≠ e.documentId) :
    alookup (add st e).documentIndex d = alookup st.documentIndex d := by
  show alookup (mapUpdate
    (if (alookup st.documentIndex e.documentId).isSome then
      st.documentIndex
    else mapSet st.documentIndex e.documentId [])
    e.documentId (fun s => setAdd s e.id)) d = _
  rw [alookup_mapUpdate_ne _ _ h]
  by_cases hp : (alookup st.documentIndex e.documentId).isSome
  · rw [if_pos hp]
  · rw [if_neg hp, alookup_mapSet_ne _ _ h]

/-- `add` preserves the representation invariant when the added id is not
currently stored under a different document. -/
theorem wf_add {st : InMemoryVectorStore} {e : VectorEntry} (hwf : WF st)
    (hsafe : SafeAdd st e) : WF (add st e) := by
  obtain ⟨hnodE, hnodD, hnodS, hid, hc1, hc2, hc3⟩ := hwf
  have hkeysD : (keys (add st e).documentIndex).Nodup := by
    show (keys (mapUpdate
      (if (alookup st.documentIndex e.documentId).isSome then
        st.documentIndex
      else mapSet st.documentIndex e.documentId [])
      e.documentId (fun s => setAdd s e.id))).Nodup
    apply nodup_keys_mapUpdate
    by_cases hp : (alookup st.documentIndex e.documentId).isSome
    · rw [if_pos hp]
      exact hnodD
    · rw [if_neg hp]
      exact nodup_keys_mapSet _ _ _ hnodD
  refine ⟨nodup_keys_mapSet _ _ _ hnodE, hkeysD, ?_, ?_, ?_, ?_, ?_⟩
  · -- id sets stay duplicate-free
    intro d s hs
    by_cases hd : d = e.documentId
    · rw [hd, add_docIndex_lookup_self] at hs
      injection hs with hs
      rw [← hs]
      apply setAdd_nodup
      cases hold : alookup st.documentIndex e.documentId with
      | none => simp [hold]
      | some s0 =>
        have := hnodS e.documentId s0 hold
        simpa [hold] using this
    · rw [add_docIndex_lookup_ne st e hd] at hs
      exact hnodS d s hs
  · -- entries are stored under their own id
    intro id e2 h2
    by_cases hde : id = e.id
    · rw [hde, add_entries_lookup_self] at h2
      injection h2 with h2
      rw [← h2, hde]
    · rw [add_entries_lookup_ne st e hde] at h2
      exact hid id e2 h2
  · -- every entry id is in its document's set
    intro id e2 h2
    by_cases hde : id = e.id
    · rw [hde, add_entries_lookup_self] at h2
      injection h2 with h2
      rw [← h2, add_docIndex_lookup_self, hde]
      simp [mem_setAdd]
    · rw [add_entries_lookup_ne st e hde] at h2
      have hold := hc1 id e2 h2
      by_cases hdoc : e2.documentId = e.documentId
      · rw [hdoc, add_docIndex_lookup_self]
        rw [hdoc] at hold
        simp only [Option.getD_some]
        exact mem_setAdd.mpr (Or.inl hold)
      · rw [add_docIndex_lookup_ne st e hdoc]
        exact hold
  · -- every id in a set resolves to an entry of that document
    intro d s hs id hmem
    by_cases hd : d = e.documentId
    · rw [hd, add_docIndex_lookup_self] at hs
      injection hs with hs
      rw [← hs] at hmem
      by_cases hde : id = e.id
      · rw [hde, add_entries_lookup_self]
        rw [hd]
        rfl
      · have hin : id ∈ (alookup st.documentIndex e.documentId).getD [] := by
          rcases mem_setAdd.mp hmem with h | h
          · exact h
          · exact absurd h hde
        cases hold : alookup st.documentIndex e.documentId with
        | none => rw [hold] at hin; exact absurd hin (List.not_mem_nil id)
        | some s0 =>
          rw [hold] at hin
          simp only [Option.getD_some] at hin
          rw [add_entries_lookup_ne st e hde, hd]
          exact hc2 e.documentId s0 hold id hin
    · rw [add_docIndex_lookup_ne st e hd] at hs
      have hold := hc2 d s hs id hmem
      by_cases hde : id = e.id
      · exfalso
        cases holds : alookup st.entries e.id with
        | none => rw [hde, holds] at hold; simp at hold
        | some o =>
          have hsafe2 : o.documentId = e.documentId := by
            unfold SafeAdd at hsafe
            rw [holds] at hsafe
            simpa using hsafe
          rw [hde, holds] at hold
          simp only [Option.map] at hold
          injection hold with hold
          exact hd (hold ▸ hsafe2 : d = e.documentId)
      · rw [add_entries_lookup_ne st e hde]
        exact hold
  · -- no set is empty
    intro d s hs
    by_cases hd : d = e.documentId
    · rw [hd, add_docIndex_lookup_self] at hs
      injection hs with hs
      rw [← hs]
      exact setAdd_ne_nil
    · rw [add_docIndex_lookup_ne st e hd] at hs
      exact hc3 d s hs

/-- `delete` preserves the representation invariant. -/
theorem wf_deleteEntry {st : InMemoryVectorStore} (id0 : String)
    (hwf : WF st) : WF (deleteEntry st id0).2 := by
  obtain ⟨hnodE, hnodD, hnodS, hid, hc1, hc2, hc3⟩ := hwf
  cases hent : alookup st.entries id0 with
  | none =>
    have hsame : (deleteEntry st id0).2 = st := by
      unfold deleteEntry
      rw [hent]
    rw [hsame]
    exact ⟨hnodE, hnodD, hnodS, hid, hc1, hc2, hc3⟩
  | some entry =>
    have hmem_ne : ∀ d s, alookup st.documentIndex d = some s →
        d ≠ entry.documentId → ∀ id ∈ s, id ≠ id0 := by
      intro d s hs hd id hmem hcontra
      have h2 := hc2 d s hs id hmem
      rw [hcontra, hent] at h2
      simp only [Option.map] at h2
      injection h2 with h2
      exact hd h2.symm
    have hentry_mem := hc1 id0 entry hent
    cases hdocs : alookup st.documentIndex entry.documentId with
    | none =>
      exfalso
      rw [hdocs] at hentry_mem
      exact absurd hentry_mem (List.not_mem_nil id0)
    | some docEntries =>
      rw [hdocs] at hentry_mem
      simp only [Option.getD_some] at hentry_mem
      have hshape : (deleteEntry st id0).2 =
          ⟨mapDelete st.entries id0,
            if (setRemove docEntries id0).length = 0 then
              mapDelete st.documentIndex entry.documentId
            else
              mapUpdate st.documentIndex entry.documentId
                (fun _ => setRemove docEntries id0)⟩ := by
        unfold deleteEntry
        rw [hent]
        simp only
        rw [hdocs]
      rw [hshape]
      by_cases hzero : (setRemove docEntries id0).length = 0
      · -- the document's set becomes empty and its key is pruned
        rw [if_pos hzero]
        have hsets : ∀ d s,
            alookup (mapDelete st.documentIndex entry.documentId) d = some s →
            alookup st.documentIndex d = some s ∧ d ≠ entry.documentId := by
          intro d s hs
          by_cases hd : d = entry.documentId
          · rw [hd, alookup_mapDelete_self] at hs
            exact absurd hs (by simp)
          · rw [alookup_mapDelete_ne _ hd] at hs
            exact ⟨hs, hd⟩
        refine ⟨nodup_keys_mapDelete _ _ hnodE,
          nodup_keys_mapDelete _ _ hnodD, ?_, ?_, ?_, ?_, ?_⟩
        · intro d s hs
          exact hnodS d s (hsets d s hs).1
        · intro id e2 h2
          by_cases hde : id = id0
          · rw [hde, alookup_mapDelete_self] at h2
            exact absurd h2 (by simp)
          · rw [alookup_mapDelete_ne _ hde] at h2
            exact hid id e2 h2
        · intro id e2 h2
          by_cases hde : id = id0
          · rw [hde, alookup_mapDelete_self] at h2
            exact absurd h2 (by simp)
          · rw [alookup_mapDelete_ne _ hde] at h2
            have hold := hc1 id e2 h2
            have hdoc2 : e2.documentId ≠ entry.documentId := by
              intro hcontra
              rw [hcontra, hdocs] at hold
              simp only [Option.getD_some] at hold
              have : id ∈ setRemove docEntries id0 :=
                mem_setRemove.mpr ⟨hold, hde⟩
              rw [List.length_eq_zero.mp hzero] at this
              exact absurd this (List.not_mem_nil id)
            rw [alookup_mapDelete_ne _ hdoc2]
            exact hold
        · intro d s hs id hmem
          obtain ⟨hold, hd⟩ := hsets d s hs
          have hne := hmem_ne d s hold hd id hmem
          rw [alookup_mapDelete_ne _ hne]
          exact hc2 d s hold id hmem
        · intro d s hs
          exact hc3 d s (hsets d s hs).1
      · -- the document's set shrinks but stays non-empty
        rw [if_neg hzero]
        have hlookup_sets : ∀ d,
            alookup (mapUpdate st.documentIndex entry.documentId
              (fun _ => setRemove docEntries id0)) d =
            if d = entry.documentId then some (setRemove docEntries id0)
            else alookup st.documentIndex d := by
          intro d
          by_cases hd : d = entry.documentId
          · rw [if_pos hd, hd, alookup_mapUpdate_self, hdocs]
            rfl
          · rw [if_neg hd, alookup_mapUpdate_ne _ _ hd]
        refine ⟨nodup_keys_mapDelete _ _ hnodE, ?_, ?_, ?_, ?_, ?_, ?_⟩
        · show (keys (mapUpdate st.documentIndex entry.documentId
            (fun _ => setRemove docEntries id0))).Nodup
          rw [keys_mapUpdate]
          exact hnodD
        · intro d s hs
          rw [hlookup_sets d] at hs
          by_cases hd : d = entry.documentId
          · rw [if_pos hd] at hs
            injection hs with hs
            rw [← hs]
            exact setRemove_nodup (hnodS entry.documentId docEntries hdocs)
          · rw [if_neg hd] at hs
            exact hnodS d s hs
        · intro id e2 h2
          by_cases hde : id = id0
          · rw [hde, alookup_mapDelete_self] at h2
            exact absurd h2 (by simp)
          · rw [alookup_mapDelete_ne _ hde] at h2
            exact hid id e2 h2
        · intro id e2 h2
          by_cases hde : id = id0
          · rw [hde, alookup_mapDelete_self] at h2
            exact absurd h2 (by simp)
          · rw [alookup_mapDelete_ne _ hde] at h2
            have hold := hc1 id e2 h2
            rw [hlookup_sets e2.documentId]
            by_cases hdoc2 : e2.documentId = entry.documentId
            · rw [if_pos hdoc2]
              rw [hdoc2, hdocs] at hold
              simp only [Option.getD_some] at hold
              simp only [Option.getD_some]
              exact mem_setRemove.mpr ⟨hold, hde⟩
            · rw [if_neg hdoc2]
              exact hold
        · intro d s hs id hmem
          rw [hlookup_sets d] at hs
          by_cases hd : d = entry.documentId
          · rw [if_pos hd] at hs
            injection hs with hs
            rw [← hs] at hmem
            obtain ⟨hin, hne⟩ := mem_setRemove.mp hmem
            rw [alookup_mapDelete_ne _ hne, hd]
            exact hc2 entry.documentId docEntries hdocs id hin
          · rw [if_neg hd] at hs
            have hne := hmem_ne d s hs hd id hmem
            rw [alookup_mapDelete_ne _ hne]
            exact hc2 d s hs id hmem
        · intro d s hs
          rw [hlookup_sets d] at hs
          by_cases hd : d = entry.documentId
          · rw [if_pos hd] at hs
            injection hs with hs
            rw [← hs]
            intro hcontra
            rw [hcontra] at hzero
            exact hzero rfl
          · rw [if_neg hd] at hs
            exact hc3 d s hs

/-! Behaviour of the `deleteByDocumentId` fold. -/

theorem foldDelete_lookup_notMem (ids : List String) :
    ∀ (es : List (String × VectorEntry)) (acc : Nat) (id : String),
      id ∉ ids →
      alookup (ids.foldl deleteStep (acc, es)).2 id = alookup es id := by
  induction ids with
  | nil =>
    intro es acc id _
    rfl
  | cons i rest ih =>
    intro es acc id hid
    have hne : id ≠ i := fun h => hid (h ▸ List.mem_cons_self i rest)
    have hni : id ∉ rest := fun h => hid (List.mem_cons_of_mem i h)
    rw [List.foldl_cons]
    by_cases hp : (alookup es i).isSome
    · have hstep : deleteStep (acc, es) i = (acc + 1, mapDelete es i) := by
        unfold deleteStep
        rw [if_pos hp]
      rw [hstep, ih (mapDelete es i) (acc + 1) id hni,
        alookup_mapDelete_ne _ hne]
    · have hstep : deleteStep (acc, es) i = (acc, es) := by
        unfold deleteStep
        rw [if_neg hp]
      rw [hstep]
      exact ih es acc id hni

theorem foldDelete_lookup_mem (ids : List String) :
    ∀ (es : List (String × VectorEntry)) (acc : Nat) (id : String),
      id ∈ ids →
      alookup (ids.foldl deleteStep (acc, es)).2 id = none := by
  induction ids with
  | nil =>
    intro es acc id h
    exact absurd h (List.not_mem_nil id)
  | cons i rest ih =>
    intro es acc id hid
    rw [List.foldl_cons]
    by_cases hp : (alookup es i).isSome
    · have hstep : deleteStep (acc, es) i = (acc + 1, mapDelete es i) := by
        unfold deleteStep
        rw [if_pos hp]
      rw [hstep]
      by_cases hmem : id ∈ rest
      · exact ih _ _ id hmem
      · have hij : id = i := by
          rcases List.mem_cons.mp hid with h | h
          · exact h
          · exact absurd h hmem
        rw [foldDelete_lookup_notMem rest _ _ id hmem, hij,
          alookup_mapDelete_self]
    · have hstep : deleteStep (acc, es) i = (acc, es) := by
        unfold deleteStep
        rw [if_neg hp]
      rw [hstep]
      by_cases hmem : id ∈ rest
      · exact ih _ _ id hmem
      · have hij : id = i := by
          rcases List.mem_cons.mp hid with h | h
          · exact h
          · exact absurd h hmem
        rw [foldDelete_lookup_notMem rest _ _ id hmem, hij]
        exact Option.not_isSome_iff_eq_none.mp hp

theorem foldDelete_nodup (ids : List String) :
    ∀ (es : List (String × VectorEntry)) (acc : Nat),
      (keys es).Nodup → (keys (ids.foldl deleteStep (acc, es)).2).Nodup := by
  induction ids with
  | nil =>
    intro es acc h
    exact h
  | cons i rest ih =>
    intro es acc h
    rw [List.foldl_cons]
    by_cases hp : (alookup es i).isSome
    · have hstep : deleteStep (acc, es) i = (acc + 1, mapDelete es i) := by
        unfold deleteStep
        rw [if_pos hp]
      rw [hstep]
      exact ih _ _ (nodup_keys_mapDelete _ _ h)
    · have hstep : deleteStep (acc, es) i = (acc, es) := by
        unfold deleteStep
        rw [if_neg hp]
      rw [hstep]
      exact ih _ _ h

theorem foldDelete_count (ids : List String) :
    ∀ (es : List (String × VectorEntry)) (acc : Nat),
      ids.Nodup → (∀ i ∈ ids, (alookup es i).isSome) →
      (ids.foldl deleteStep (acc, es)).1 = acc + ids.length := by
  induction ids with
  | nil =>
    intro es acc _ _
    rfl
  | cons i rest ih =>
    intro es acc hnd hall
    rw [List.foldl_cons]
    have hp : (alookup es i).isSome := hall i (List.mem_cons_self i rest)
    have hstep : deleteStep (acc, es) i = (acc + 1, mapDelete es i) := by
      unfold deleteStep
      rw [if_pos hp]
    rw [hstep]
    have hrest : ∀ j ∈ rest, (alookup (mapDelete es i) j).isSome := by
      intro j hj
      have hne : j ≠ i := by
        intro h
        exact (List.nodup_cons.mp hnd).1 (h ▸ hj)
      rw [alookup_mapDelete_ne _ hne]
      exact hall j (List.mem_cons_of_mem i hj)
    rw [ih (mapDelete es i) (acc + 1) (List.nodup_cons.mp hnd).2 hrest]
    simp only [List.length_cons]
    omega

/-- `deleteByDocumentId` preserves the representation invariant. -/
theorem wf_deleteByDocumentId {st : InMemoryVectorStore} (d0 : String)
    (hwf : WF st) : WF (deleteByDocumentId st d0).2 := by
  obtain ⟨hnodE, hnodD, hnodS, hid, hc1, hc2, hc3⟩ := hwf
  cases hdocs : alookup st.documentIndex d0 with
  | none =>
    have hsame : (deleteByDocumentId st d0).2 = st := by
      unfold deleteByDocumentId
      rw [hdocs]
    rw [hsame]
    exact ⟨hnodE, hnodD, hnodS, hid, hc1, hc2, hc3⟩
  | some entryIds =>
    have hshape : (deleteByDocumentId st d0).2 =
        ⟨(entryIds.foldl deleteStep (0, st.entries)).2,
          mapDelete st.documentIndex d0⟩ := by
      unfold deleteByDocumentId
      rw [hdocs]
    rw [hshape]
    have hnotin_docid : ∀ (id : String) (e2 : VectorEntry),
        alookup st.entries id = some e2 → id ∉ entryIds →
        e2.documentId ≠ d0 := by
      intro id e2 h2 hni hcontra
      have hold := hc1 id e2 h2
      rw [hcontra, hdocs] at hold
      simp only [Option.getD_some] at hold
      exact hni hold
    have hsets : ∀ d s, alookup (mapDelete st.documentIndex d0) d = some s →
        alookup st.documentIndex d = some s ∧ d ≠ d0 := by
      intro d s hs
      by_cases hd : d = d0
      · rw [hd, alookup_mapDelete_self] at hs
        exact absurd hs (by simp)
      · rw [alookup_mapDelete_ne _ hd] at hs
        exact ⟨hs, hd⟩
    refine ⟨foldDelete_nodup entryIds st.entries 0 hnodE,
      nodup_keys_mapDelete _ _ hnodD, ?_, ?_, ?_, ?_, ?_⟩
    · intro d s hs
      exact hnodS d s (hsets d s hs).1
    · intro id e2 h2
      by_cases hmem : id ∈ entryIds
      · rw [foldDelete_lookup_mem entryIds st.entries 0 id hmem] at h2
        exact absurd h2 (by simp)
      · rw [foldDelete_lookup_notMem entryIds st.entries 0 id hmem] at h2
        exact hid id e2 h2
    · intro id e2 h2
      by_cases hmem : id ∈ entryIds
      · rw [foldDelete_lookup_mem entryIds st.entries 0 id hmem] at h2
        exact absurd h2 (by simp)
      · rw [foldDelete_lookup_notMem entryIds st.entries 0 id hmem] at h2
        have hd2 : e2.documentId ≠ d0 := hnotin_docid id e2 h2 hmem
        rw [alookup_mapDelete_ne _ hd2]
        exact hc1 id e2 h2
    · intro d s hs id hmem
      obtain ⟨hold, hd⟩ := hsets d s hs
      have h2 := hc2 d s hold id hmem
      have hni : id ∉ entryIds := by
        intro hin
        have h3 := hc2 d0 entryIds hdocs id hin
        rw [h2] at h3
        injection h3 with h3
        exact hd h3
      rw [foldDelete_lookup_notMem entryIds st.entries 0 id hni]
      exact h2
    · intro d s hs
      exact hc3 d s (hsets d s hs).1

/-- The empty store satisfies the representation invariant. -/
theorem wf_emptyStore : WF emptyStore := by
  refine ⟨List.nodup_nil, List.nodup_nil, ?_, ?_, ?_, ?_, ?_⟩
  · intro d s hs
    exact absurd hs (by simp [emptyStore, alookup])
  · intro id e h
    exact absurd h (by simp [emptyStore, alookup])
  · intro id e h
    exact absurd h (by simp [emptyStore, alookup])
  · intro d s hs
    exact absurd hs (by simp [emptyStore, alookup])
  · intro d s hs
    exact absurd hs (by simp [emptyStore, alookup])

/-- `clear` restores the representation invariant. -/
theorem wf_clear (st : InMemoryVectorStore) : WF (clear st) :=
  wf_emptyStore

/-- `addMany` preserves the representation invariant when each added id is
safe on the intermediate store it meets. -/
theorem wf_addMany {st : InMemoryVectorStore} {es : List VectorEntry}
    (hwf : WF st) (hsafe : SafeAddMany st es) : WF (addMany st es) := by
  induction es generalizing st with
  | nil => exact hwf
  | cons e rest ih =>
    have hsafe2 : SafeAdd st e ∧ SafeAddMany (add st e) rest := hsafe
    show WF (List.foldl add (add st e) rest)
    exact ih (wf_add hwf hsafe2.1) hsafe2.2

/-- Every safe store operation preserves the representation invariant. -/
theorem wf_applyOp {st : InMemoryVectorStore} (op : StoreOp) (hwf : WF st)
    (hsafe : SafeOp st op) : WF (applyOp st op) := by
  cases op with
  | addOp e => exact wf_add hwf hsafe
  | addManyOp es => exact wf_addMany hwf hsafe
  | deleteOp id => exact wf_deleteEntry id hwf
  | deleteByDocumentIdOp d => exact wf_deleteByDocumentId d hwf
  | clearOp => exact wf_clear st

/-- A safe operation sequence preserves the representation invariant. -/
theorem safeTrace_wf (ops : List StoreOp) :
    ∀ st : InMemoryVectorStore, WF st → SafeTrace st ops →
      WF (ops.foldl applyOp st) := by
  induction ops with
  | nil =>
    intro st hwf _
    exact hwf
  | cons op rest ih =>
    intro st hwf htrace
    have htrace2 : SafeOp st op ∧ SafeTrace (applyOp st op) rest := htrace
    rw [List.foldl_cons]
    exact ih (applyOp st op) (wf_applyOp op hwf htrace2.1) htrace2.2

end VectorStore

section StoreInvariantProofs

open VectorStore

/-- C10 counterexample: inserting id `x` under document `A` and then the
same id under document `B` leaves the two maps inconsistent — document
`A`'s index set still contains `x`, but the stored entry `x` now belongs
to document `B`. -/
theorem storeConsistency_counterexample :
    ¬ Consistent (add (add emptyStore entryXA) entryXB) := by
  intro h
  have h2 := h.2.1 "A" ["x"] rfl "x" (List.mem_singleton.mpr rfl)
  rw [show alookup (add (add emptyStore entryXA) entryXB).entries "x" =
    some entryXB from rfl] at h2
  simp only [Option.map] at h2
  injection h2 with h2
  exact absurd h2 (by decide)

/-- C10 (amended): after any sequence of `add`, `addMany`, `delete`,
`deleteByDocumentId` and `clear` operations starting from the empty store
in which no `add` (nor any `add` inside an `addMany`) reuses an id that is
currently stored under a different document id, the primary map and the
secondary document index agree: every stored entry's id is in the index
set of its document, every id in an index set resolves to an entry of that
document, and no index set is empty.  (The counterexample shows the
invariant is violated as soon as an id is reused across documents.) -/
theorem safeTrace_consistent (ops : List StoreOp)
    (h : SafeTrace emptyStore ops) : Consistent (applyOps ops) :=
  (safeTrace_wf ops emptyStore wf_emptyStore h).2.2.2.2

/-- C10 witness: a concrete safe sequence exercising every operation,
including a safe id reuse after an intervening `clear`, keeps the store
consistent. -/
theorem safeTrace_consistent_witness :
    Consistent (applyOps [StoreOp.addOp entryXA,
      StoreOp.addManyOp [entryDim3], StoreOp.deleteOp "x",
      StoreOp.deleteByDocumentIdOp "docA", StoreOp.clearOp,
      StoreOp.addOp entryXB]) :=
  safeTrace_consistent _
    ⟨(by decide : SafeAdd emptyStore entryXA),
      ⟨(by decide : SafeAdd (add emptyStore entryXA) entryDim3), trivial⟩,
      trivial, trivial, trivial,
      (by decide : SafeAdd emptyStore entryXB), trivial⟩

end StoreInvariantProofs

namespace VectorStore

/-! Support lemmas for the `deleteByDocumentId` contract and
re-indexing. -/

theorem docIndex_none_after_delete (st : InMemoryVectorStore) (d : String) :
    alookup (deleteByDocumentId st d).2.documentIndex d = none := by
  cases hdocs : alookup st.documentIndex d with
  | none =>
    have hsame : (deleteByDocumentId st d).2 = st := by
      unfold deleteByDocumentId
      rw [hdocs]
    rw [hsame]
    exact hdocs
  | some entryIds =>
    have hshape : (deleteByDocumentId st d).2.documentIndex =
        mapDelete st.documentIndex d := by
      unfold deleteByDocumentId
      rw [hdocs]
    rw [hshape]
    exact alookup_mapDelete_self st.documentIndex d

theorem addMany_entries_isSome (es : List VectorEntry) :
    ∀ (s0 : InMemoryVectorStore) (id : String),
      ((alookup s0.entries id).isSome ∨ id ∈ es.map (fun e => e.id)) →
      (alookup (addMany s0 es).entries id).isSome := by
  induction es with
  | nil =>
    intro s0 id h
    rcases h with h | h
    · exact h
    · exact absurd h (by simp)
  | cons e rest ih =>
    intro s0 id h
    show (alookup (addMany (add s0 e) rest).entries id).isSome
    by_cases hde : id = e.id
    · apply ih
      left
      rw [hde, add_entries_lookup_self]
      rfl
    · apply ih
      rcases h with h | h
      · left
        rw [add_entries_lookup_ne s0 e hde]
        exact h
      · rcases List.mem_map.mp h with ⟨e2, hmem, heq⟩
        rcases List.mem_cons.mp hmem with rfl | hmem2
        · exact absurd heq.symm hde
        · right
          exact List.mem_map.mpr ⟨e2, hmem2, heq⟩

theorem addMany_docIndex_set (es : List VectorEntry) :
    ∀ (s0 : InMemoryVectorStore) (d : String) (cur : List String),
      (∀ e ∈ es, e.documentId = d) →
      alookup s0.documentIndex d = some cur →
      (∀ e ∈ es, e.id ∉ cur) →
      (es.map (fun e => e.id)).Nodup →
      alookup (addMany s0 es).documentIndex d =
        some (cur ++ es.map (fun e => e.id)) := by
  induction es with
  | nil =>
    intro s0 d cur _ hcur _ _
    simpa using hcur
  | cons e rest ih =>
    intro s0 d cur hall hcur hfresh hnd
    have hed : e.documentId = d := hall e (List.mem_cons_self e rest)
    have hlook : alookup (add s0 e).documentIndex d =
        some (setAdd cur e.id) := by
      rw [← hed] at hcur ⊢
      rw [add_docIndex_lookup_self, hcur]
      rfl
    have hsetadd : setAdd cur e.id = cur ++ [e.id] := by
      unfold setAdd
      rw [if_neg (hfresh e (List.mem_cons_self e rest))]
    rw [hsetadd] at hlook
    have hres := ih (add s0 e) d (cur ++ [e.id])
      (fun e2 h2 => hall e2 (List.mem_cons_of_mem e h2)) hlook
      (fun e2 h2 => by
        intro hcontra
        rcases List.mem_append.mp hcontra with hc | hc
        · exact hfresh e2 (List.mem_cons_of_mem e h2) hc
        · have : e2.id = e.id := List.mem_singleton.mp hc
          have hne : e.id ∉ rest.map (fun e => e.id) :=
            (List.nodup_cons.mp (by simpa using hnd)).1
          exact hne (this ▸ List.mem_map.mpr ⟨e2, h2, rfl⟩))
      (List.nodup_cons.mp (by simpa using hnd)).2
    show alookup (addMany (add s0 e) rest).documentIndex d = _
    rw [hres]
    simp

theorem length_filterMap_isSome (l : List String)
    (f : String → Option VectorEntry) (h : ∀ x ∈ l, (f x).isSome) :
    (l.filterMap f).length = l.length := by
  induction l with
  | nil => rfl
  | cons x rest ih =>
    have hx := h x (List.mem_cons_self x rest)
    obtain ⟨v, hv⟩ := Option.isSome_iff_exists.mp hx
    rw [List.filterMap_cons, hv]
    simp only [List.length_cons]
    rw [ih (fun y hy => h y (List.mem_cons_of_mem x hy))]

end VectorStore

section DeleteByDocumentProofs

open VectorStore

/-- C8: under the store's representation invariant, `deleteByDocumentId`
removes exactly the entries belonging to the document and returns their
number — `(0, unchanged)` when the store has no entry of that document —
and re-indexing (purge followed by inserting the document's fresh chunk
entries, as `indexDocument` does) leaves `getByDocumentId` with exactly
the new chunk count, never a mix of stale and fresh chunks. -/
theorem deleteByDocumentId_spec :
    (∀ (st : InMemoryVectorStore) (d : String), WF st →
      (∀ id e, alookup st.entries id = some e → e.documentId ≠ d) →
      deleteByDocumentId st d = (0, st)) ∧
    (∀ (st : InMemoryVectorStore) (d : String), WF st →
      (deleteByDocumentId st d).1 =
        (st.entries.filter (fun p => p.2.documentId = d)).length ∧
      (∀ id e, alookup (deleteByDocumentId st d).2.entries id = some e →
        e.documentId ≠ d) ∧
      (∀ id e, alookup st.entries id = some e → e.documentId ≠ d →
        alookup (deleteByDocumentId st d).2.entries id = some e)) ∧
    (∀ (st : InMemoryVectorStore) (d : String)
      (newEntries : List VectorEntry), WF st →
      (∀ e ∈ newEntries, e.documentId = d) →
      (newEntries.map (fun e => e.id)).Nodup →
      (getByDocumentId (indexDocumentEntries st d newEntries) d).length =
        newEntries.length) := by
  have absent_key : ∀ (st : InMemoryVectorStore) (d : String), WF st →
      (∀ id e, alookup st.entries id = some e → e.documentId ≠ d) →
      alookup st.documentIndex d = none := by
    intro st d hwf hnone
    obtain ⟨hnodE, hnodD, hnodS, hid, hc1, hc2, hc3⟩ := hwf
    cases hdocs : alookup st.documentIndex d with
    | none => rfl
    | some s =>
      exfalso
      obtain ⟨i, hi⟩ := List.exists_mem_of_ne_nil s (hc3 d s hdocs)
      have h2 := hc2 d s hdocs i hi
      cases hent : alookup st.entries i with
      | none => rw [hent] at h2; exact absurd h2 (by simp)
      | some e =>
        rw [hent] at h2
        simp only [Option.map] at h2
        injection h2 with h2
        exact hnone i e hent h2
  have no_entry_of_none : ∀ (st : InMemoryVectorStore) (d : String), WF st →
      alookup st.documentIndex d = none →
      ∀ id e, alookup st.entries id = some e → e.documentId ≠ d := by
    intro st d hwf hdocs id e hent hcontra
    obtain ⟨hnodE, hnodD, hnodS, hid, hc1, hc2, hc3⟩ := hwf
    have h1 := hc1 id e hent
    rw [hcontra, hdocs] at h1
    exact absurd h1 (List.not_mem_nil id)
  refine ⟨?_, ?_, ?_⟩
  · intro st d hwf hnone
    have hdocs := absent_key st d hwf hnone
    unfold deleteByDocumentId
    rw [hdocs]
  · intro st d hwf
    obtain ⟨hnodE, hnodD, hnodS, hid, hc1, hc2, hc3⟩ := hwf
    cases hdocs : alookup st.documentIndex d with
    | none =>
      have hsame : deleteByDocumentId st d = (0, st) := by
        unfold deleteByDocumentId
        rw [hdocs]
      rw [hsame]
      have hfilter : st.entries.filter (fun p => p.2.documentId = d) = [] := by
        apply List.filter_eq_nil_iff.mpr
        intro p hp
        have hl : alookup st.entries p.1 = some p.2 := mem_alookup hnodE hp
        have := no_entry_of_none st d
          ⟨hnodE, hnodD, hnodS, hid, hc1, hc2, hc3⟩ hdocs p.1 p.2 hl
        simpa using this
      rw [hfilter]
      refine ⟨rfl, ?_, ?_⟩
      · intro id e hent
        exact no_entry_of_none st d
          ⟨hnodE, hnodD, hnodS, hid, hc1, hc2, hc3⟩ hdocs id e hent
      · intro id e hent _
        exact hent
    | some entryIds =>
      have hpresent : ∀ i ∈ entryIds, (alookup st.entries i).isSome := by
        intro i hi
        have h2 := hc2 d entryIds hdocs i hi
        cases hent : alookup st.entries i with
        | none => rw [hent] at h2; exact absurd h2 (by simp)
        | some e => rfl
      have hcount := foldDelete_count entryIds st.entries 0
        (hnodS d entryIds hdocs) hpresent
      have hshape1 : (deleteByDocumentId st d).1 =
          (entryIds.foldl deleteStep (0, st.entries)).1 := by
        unfold deleteByDocumentId
        rw [hdocs]
      have hshape2 : (deleteByDocumentId st d).2.entries =
          (entryIds.foldl deleteStep (0, st.entries)).2 := by
        unfold deleteByDocumentId
        rw [hdocs]
      have hmem_iff : ∀ i, i ∈ entryIds ↔
          i ∈ (st.entries.filter (fun p => p.2.documentId = d)).map
            (fun p => p.1) := by
        intro i
        constructor
        · intro hi
          have h2 := hc2 d entryIds hdocs i hi
          cases hent : alookup st.entries i with
          | none => rw [hent] at h2; exact absurd h2 (by simp)
          | some e =>
            rw [hent] at h2
            simp only [Option.map] at h2
            injection h2 with h2
            have hpm : (i, e) ∈ st.entries := alookup_mem hent
            apply List.mem_map.mpr
            refine ⟨(i, e), ?_, rfl⟩
            apply List.mem_filter.mpr
            exact ⟨hpm, by simpa using h2⟩
        · intro hi
          rcases List.mem_map.mp hi with ⟨p, hpf, rfl⟩
          have hpmem := List.mem_filter.mp hpf
          have hdp : p.2.documentId = d := by simpa using hpmem.2
          have hl : alookup st.entries p.1 = some p.2 :=
            mem_alookup hnodE hpmem.1
          have h1 := hc1 p.1 p.2 hl
          rw [hdp, hdocs] at h1
          simpa using h1
      have hnd2 : ((st.entries.filter
          (fun p => p.2.documentId = d)).map (fun p => p.1)).Nodup := by
        have hs : List.Sublist
            ((st.entries.filter (fun p => p.2.documentId = d)).map
              (fun p : String × VectorEntry => p.1))
            (st.entries.map (fun p : String × VectorEntry => p.1)) :=
          List.Sublist.map (fun p : String × VectorEntry => p.1)
            (List.filter_sublist st.entries)
        have hnodE2 : (st.entries.map
            (fun p : String × VectorEntry => p.1)).Nodup := hnodE
        exact List.Nodup.sublist hs hnodE2
      have hperm := (List.perm_ext_iff_of_nodup
        (hnodS d entryIds hdocs) hnd2).mpr hmem_iff
      have hlen := hperm.length_eq
      refine ⟨?_, ?_, ?_⟩
      · rw [hshape1, hcount, Nat.zero_add, hlen, List.length_map]
      · intro id e hent
        rw [hshape2] at hent
        by_cases hmem : id ∈ entryIds
        · rw [foldDelete_lookup_mem entryIds st.entries 0 id hmem] at hent
          exact absurd hent (by simp)
        · rw [foldDelete_lookup_notMem entryIds st.entries 0 id hmem] at hent
          intro hcontra
          have h1 := hc1 id e hent
          rw [hcontra, hdocs] at h1
          simp only [Option.getD_some] at h1
          exact hmem h1
      · intro id e hent hne
        rw [hshape2]
        have hmem : id ∉ entryIds := by
          intro hin
          have h2 := hc2 d entryIds hdocs id hin
          rw [hent] at h2
          simp only [Option.map] at h2
          injection h2 with h2
          exact hne h2
        rw [foldDelete_lookup_notMem entryIds st.entries 0 id hmem]
        exact hent
  · intro st d newEntries hwf hall hnd
    have hnone : alookup (deleteByDocumentId st d).2.documentIndex d = none :=
      docIndex_none_after_delete st d
    cases newEntries with
    | nil =>
      show (getByDocumentId (deleteByDocumentId st d).2 d).length = 0
      unfold getByDocumentId
      rw [hnone]
      rfl
    | cons e0 rest =>
      have he0d : e0.documentId = d := hall e0 (List.mem_cons_self e0 rest)
      have hlook1 : alookup (add (deleteByDocumentId st d).2 e0).documentIndex
          d = some [e0.id] := by
        rw [← he0d] at hnone ⊢
        rw [add_docIndex_lookup_self, hnone]
        rfl
      have hset := addMany_docIndex_set rest
        (add (deleteByDocumentId st d).2 e0) d [e0.id]
        (fun e2 h2 => hall e2 (List.mem_cons_of_mem e0 h2)) hlook1
        (fun e2 h2 hc => by
          have heq : e2.id = e0.id := List.mem_singleton.mp hc
          have hne : e0.id ∉ rest.map (fun e => e.id) :=
            (List.nodup_cons.mp (by simpa using hnd)).1
          exact hne (heq ▸ List.mem_map.mpr ⟨e2, h2, rfl⟩))
        (List.nodup_cons.mp (by simpa using hnd)).2
      have hfinal : alookup (indexDocumentEntries st d
          (e0 :: rest)).documentIndex d =
          some ((e0 :: rest).map (fun e => e.id)) := by
        show alookup (addMany (add (deleteByDocumentId st d).2 e0)
          rest).documentIndex d = _
        rw [hset]
        simp
      show (getByDocumentId (indexDocumentEntries st d (e0 :: rest)) d).length
        = (e0 :: rest).length
      unfold getByDocumentId
      rw [hfinal]
      rw [length_filterMap_isSome]
      · simp
      · intro x hx
        apply addMany_entries_isSome
        right
        rw [List.map_cons]
        exact hx

/-- C8 witness: deleting document `docA` from a two-entry store removes
both of its entries and returns `2`; re-indexing `docA` with one fresh
entry leaves exactly one entry under it; deleting an absent document
returns `0` and leaves the store unchanged. -/
theorem deleteByDocumentId_spec_witness :
    (deleteByDocumentId (add (add emptyStore entryDim2) entryDim3)
      "docA").1 = 2 ∧
    (getByDocumentId (indexDocumentEntries
      (add (add emptyStore entryDim2) entryDim3) "docA"
      [entryFreshA]) "docA").length = 1 ∧
    deleteByDocumentId (add emptyStore entryDim2) "docB" =
      (0, add emptyStore entryDim2) := by
  have hwf : WF (add (add emptyStore entryDim2) entryDim3) :=
    safeTrace_wf [StoreOp.addOp entryDim2, StoreOp.addOp entryDim3]
      emptyStore wf_emptyStore
      ⟨(by decide : SafeAdd emptyStore entryDim2),
        (by decide : SafeAdd (add emptyStore entryDim2) entryDim3), trivial⟩
  have hwf1 : WF (add emptyStore entryDim2) :=
    safeTrace_wf [StoreOp.addOp entryDim2] emptyStore wf_emptyStore
      ⟨(by decide : SafeAdd emptyStore entryDim2), trivial⟩
  refine ⟨?_, ?_, ?_⟩
  · exact ((deleteByDocumentId_spec.2.1 (add (add emptyStore entryDim2)
      entryDim3) "docA" hwf).1).trans (by decide)
  · exact deleteByDocumentId_spec.2.2 (add (add emptyStore entryDim2)
      entryDim3) "docA" [entryFreshA] hwf
      (fun e he => by rw [List.mem_singleton.mp he]; rfl) (by decide)
  · apply deleteByDocumentId_spec.1 (add emptyStore entryDim2) "docB" hwf1
    intro id e h
    have hent : alookup (add emptyStore entryDim2).entries id =
        (if "e1" = id then some entryDim2 else none) := rfl
    rw [hent] at h
    by_cases h1 : "e1" = id
    · rw [if_pos h1] at h
      injection h with h
      rw [← h]
      decide
    · rw [if_neg h1] at h
      exact absurd h (by simp)

end DeleteByDocumentProofs

namespace DocumentChunker

/-! Positional bounds of the sliding-window loop. -/

theorem slice_length (text : List Char) (s e : Nat) :
    (slice text s e).length = min e text.length - s := by
  simp [slice]

theorem paragraphCut_pos {w : List Char} {k : Nat}
    (h : paragraphCut w = some k) : 1 ≤ k := by
  unfold paragraphCut at h
  split at h
  · split at h
    · injection h with h
      omega
    · exact absurd h (by simp)
  · exact absurd h (by simp)

theorem sentenceCut_pos {w : List Char} {k : Nat}
    (h : sentenceCut w = some k) : 1 ≤ k := by
  unfold sentenceCut at h
  simp only [] at h
  split at h
  · split at h
    · split at h
      · injection h with h
        rename_i hgt _
        omega
      · exact absurd h (by simp)
    · exact absurd h (by simp)
  · exact absurd h (by simp)

theorem spaceCut_pos {w : List Char} {k : Nat}
    (h : spaceCut w = some k) : 1 ≤ k := by
  unfold spaceCut at h
  split at h
  · split at h
    · injection h with h
      omega
    · exact absurd h (by simp)
  · exact absurd h (by simp)

theorem findNaturalBreak_ge (text : List Char) (start targetEnd : Nat)
    (h : start + 1 ≤ min targetEnd text.length) :
    start + 1 ≤ findNaturalBreak text start targetEnd := by
  unfold findNaturalBreak
  simp only []
  split
  · rename_i k hk
    have := paragraphCut_pos hk
    omega
  · split
    · rename_i k hk
      have := sentenceCut_pos hk
      omega
    · split
      · rename_i k hk
        have := spaceCut_pos hk
        omega
      · omega

theorem proposedEnd_ge (text : List Char) (cfg : ChunkingConfig)
    (position : Nat) (hpos : position < text.length)
    (hcs : 1 ≤ cfg.chunkSize) :
    position + 1 ≤ proposedEnd text cfg position := by
  unfold proposedEnd
  by_cases hlt : min (position + cfg.chunkSize) text.length < text.length
  · rw [if_pos hlt]
    apply findNaturalBreak_ge
    omega
  · rw [if_neg hlt]
    omega

theorem stepPosition_le (text : List Char) (cfg : ChunkingConfig)
    (position n : Nat) (hpos : position < text.length)
    (hcs : 1 ≤ cfg.chunkSize) :
    stepPosition text cfg position n ≤ proposedEnd text cfg position := by
  have hge := proposedEnd_ge text cfg position hpos hcs
  unfold stepPosition
  simp only []
  split
  · rfl
  · omega

theorem stepPosition_ge (text : List Char) (cfg : ChunkingConfig)
    (position n : Nat) (hpos : position < text.length)
    (hcs : 1 ≤ cfg.chunkSize) :
    position + 1 ≤ stepPosition text cfg position n := by
  have hge := proposedEnd_ge text cfg position hpos hcs
  unfold stepPosition
  simp only []
  split
  · omega
  · omega

/-- Fuel sufficiency: since the position strictly advances on every
iteration, fuel exceeding the number of remaining characters never runs
out. -/
theorem chunkLoop_isSome (text : List Char) (cfg : ChunkingConfig)
    (hcs : 1 ≤ cfg.chunkSize) :
    ∀ (fuel position chunkIndex : Nat) (chunks : List TextChunk)
      (windows : List (Nat × Nat)),
      text.length - position < fuel →
      (chunkLoop text cfg fuel position chunkIndex chunks windows).isSome := by
  intro fuel
  induction fuel with
  | zero =>
    intro position _ _ _ h
    exact absurd h (by omega)
  | succ f ih =>
    intro position chunkIndex chunks windows h
    unfold chunkLoop
    by_cases hpos : position < text.length
    · rw [if_pos hpos]
      apply ih
      have hstep := stepPosition_ge text cfg position
        (if cfg.minChunkSize ≤ (windowContent text cfg position).length then
          (chunks ++ [(⟨windowContent text cfg position, chunkIndex⟩ :
            TextChunk)], chunkIndex + 1)
        else (chunks, chunkIndex)).1.length hpos hcs
      omega
    · rw [if_neg hpos]
      rfl

/-- C9: for every text and every configuration with `chunkSize ≥ 1`
(`chunkOverlap` arbitrary, in particular `chunkOverlap ≥ chunkSize`), the
`splitIntoChunks` loop terminates: fuel `text.length + 1` — one unit per
character — always suffices, because the loop position advances by at
least one character per iteration. -/
theorem splitIntoChunks_terminates (text : List Char)
    (cfg : ChunkingConfig) (hcs : 1 ≤ cfg.chunkSize) :
    (chunkLoop text cfg (text.length + 1) 0 0 [] []).isSome :=
  chunkLoop_isSome text cfg hcs (text.length + 1) 0 0 [] [] (by omega)

/-- C9 witness: the loop yields a result on a concrete text, also under a
configuration whose overlap exceeds its chunk size. -/
theorem splitIntoChunks_terminates_witness :
    (chunkLoop "abcd".data ⟨2, 5, 1⟩ ("abcd".data.length + 1)
      0 0 [] []).isSome :=
  splitIntoChunks_terminates "abcd".data ⟨2, 5, 1⟩ (by decide)

/-- One unfolding of the loop body in the running case. -/
theorem chunkLoop_shape (text : List Char) (cfg : ChunkingConfig)
    (f position chunkIndex : Nat) (chunks : List TextChunk)
    (windows : List (Nat × Nat)) (hpos : position < text.length) :
    chunkLoop text cfg (f + 1) position chunkIndex chunks windows =
      chunkLoop text cfg f
        (stepPosition text cfg position
          (if cfg.minChunkSize ≤ (windowContent text cfg position).length then
            (chunks ++ [(⟨windowContent text cfg position, chunkIndex⟩ :
              TextChunk)], chunkIndex + 1)
          else (chunks, chunkIndex)).1.length)
        (if cfg.minChunkSize ≤ (windowContent text cfg position).length then
          (chunks ++ [(⟨windowContent text cfg position, chunkIndex⟩ :
            TextChunk)], chunkIndex + 1)
        else (chunks, chunkIndex)).2
        (if cfg.minChunkSize ≤ (windowContent text cfg position).length then
          (chunks ++ [(⟨windowContent text cfg position, chunkIndex⟩ :
            TextChunk)], chunkIndex + 1)
        else (chunks, chunkIndex)).1
        (windows ++ [(position, proposedEnd text cfg position)]) := by
  simp only [chunkLoop]
  rw [if_pos hpos]

/-- Accumulator monotonicity and per-window kept-chunk emission: a
successful loop run keeps every accumulated window and chunk, and every
window it recorded either was already accumulated or has the proposed end
for its position, with its trimmed content emitted as a chunk whenever it
meets `minChunkSize`. -/
theorem chunkLoop_windows_spec (text : List Char) (cfg : ChunkingConfig) :
    ∀ (fuel position chunkIndex : Nat) (chunks : List TextChunk)
      (windows : List (Nat × Nat))
      (result : List TextChunk × List (Nat × Nat)),
      chunkLoop text cfg fuel position chunkIndex chunks windows
        = some result →
      (∀ w ∈ windows, w ∈ result.2) ∧ (∀ ch ∈ chunks, ch ∈ result.1) ∧
      (∀ w ∈ result.2, w ∈ windows ∨
        (w.2 = proposedEnd text cfg w.1 ∧
          (cfg.minChunkSize ≤ (windowContent text cfg w.1).length →
            ∃ ch ∈ result.1, ch.content = windowContent text cfg w.1))) := by
  intro fuel
  induction fuel with
  | zero =>
    intro position chunkIndex chunks windows result hrun
    exact absurd hrun (by simp [chunkLoop])
  | succ f ih =>
    intro position chunkIndex chunks windows result hrun
    by_cases hpos : position < text.length
    · rw [chunkLoop_shape text cfg f position chunkIndex chunks windows
        hpos] at hrun
      by_cases hkeep : cfg.minChunkSize ≤
          (windowContent text cfg position).length
      · rw [if_pos hkeep] at hrun
        obtain ⟨hw, hc, hspec⟩ := ih _ _ _ _ _ hrun
        refine ⟨?_, ?_, ?_⟩
        · intro w hmem
          exact hw w (List.mem_append.mpr (Or.inl hmem))
        · intro ch hmem
          exact hc ch (List.mem_append.mpr (Or.inl hmem))
        · intro w hmem
          rcases hspec w hmem with hold | hprop
          · rcases List.mem_append.mp hold with h1 | h1
            · exact Or.inl h1
            · right
              have hw2 : w = (position, proposedEnd text cfg position) :=
                List.mem_singleton.mp h1
              rw [hw2]
              refine ⟨rfl, fun _ => ?_⟩
              refine ⟨⟨windowContent text cfg position, chunkIndex⟩, ?_, rfl⟩
              exact hc _ (List.mem_append.mpr (Or.inr
                (List.mem_singleton.mpr rfl)))
          · exact Or.inr hprop
      · rw [if_neg hkeep] at hrun
        obtain ⟨hw, hc, hspec⟩ := ih _ _ _ _ _ hrun
        refine ⟨?_, hc, ?_⟩
        · intro w hmem
          exact hw w (List.mem_append.mpr (Or.inl hmem))
        · intro w hmem
          rcases hspec w hmem with hold | hprop
          · rcases List.mem_append.mp hold with h1 | h1
            · exact Or.inl h1
            · right
              have hw2 : w = (position, proposedEnd text cfg position) :=
                List.mem_singleton.mp h1
              rw [hw2]
              exact ⟨rfl, fun hk => absurd hk hkeep⟩
          · exact Or.inr hprop
    · have hstop : chunkLoop text cfg (f + 1) position chunkIndex chunks
          windows = some (chunks, windows) := by
        unfold chunkLoop
        rw [if_neg hpos]
      rw [hstop] at hrun
      injection hrun with hrun
      rw [← hrun]
      exact ⟨fun w hw => hw, fun ch hc => hc, fun w hw => Or.inl hw⟩

/-- Window coverage: a successful loop run proposes windows that jointly
cover every character from the start position to the end of the text. -/
theorem chunkLoop_cover (text : List Char) (cfg : ChunkingConfig)
    (hcs : 1 ≤ cfg.chunkSize) :
    ∀ (fuel position chunkIndex : Nat) (chunks : List TextChunk)
      (windows : List (Nat × Nat))
      (result : List TextChunk × List (Nat × Nat)),
      chunkLoop text cfg fuel position chunkIndex chunks windows
        = some result →
      ∀ i, position ≤ i → i < text.length →
        ∃ w ∈ result.2, w.1 ≤ i ∧ i < w.2 := by
  intro fuel
  induction fuel with
  | zero =>
    intro position chunkIndex chunks windows result hrun
    exact absurd hrun (by simp [chunkLoop])
  | succ f ih =>
    intro position chunkIndex chunks windows result hrun i hge hlt
    by_cases hpos : position < text.length
    · rw [chunkLoop_shape text cfg f position chunkIndex chunks windows
        hpos] at hrun
      by_cases hcover : i < proposedEnd text cfg position
      · refine ⟨(position, proposedEnd text cfg position), ?_, hge, hcover⟩
        exact (chunkLoop_windows_spec text cfg _ _ _ _ _ _ hrun).1 _
          (List.mem_append.mpr (Or.inr (List.mem_singleton.mpr rfl)))
      · have hnext : stepPosition text cfg position
            (if cfg.minChunkSize ≤ (windowContent text cfg position).length
              then (chunks ++ [(⟨windowContent text cfg position,
                chunkIndex⟩ : TextChunk)], chunkIndex + 1)
            else (chunks, chunkIndex)).1.length ≤ i := by
          have := stepPosition_le text cfg position
            (if cfg.minChunkSize ≤ (windowContent text cfg position).length
              then (chunks ++ [(⟨windowContent text cfg position,
                chunkIndex⟩ : TextChunk)], chunkIndex + 1)
            else (chunks, chunkIndex)).1.length hpos hcs
          omega
        exact ih _ _ _ _ _ hrun i hnext hlt
    · exact absurd (Nat.lt_of_le_of_lt hge hlt) hpos

/-! Trimming is idempotent. -/

theorem head_dropWhile_false (p : Char → Bool) (l : List Char) :
    ∀ c, (l.dropWhile p).head? = some c → p c = false := by
  induction l with
  | nil =>
    intro c h
    simp [List.dropWhile] at h
  | cons x xs ih =>
    intro c h
    rw [List.dropWhile_cons] at h
    by_cases hp : p x
    · rw [if_pos hp] at h
      exact ih c h
    · rw [if_neg hp] at h
      injection h with h
      rw [← h]
      exact Bool.not_eq_true _ |>.mp hp

theorem dropWhile_head_not (p : Char → Bool) (l : List Char)
    (h : ∀ c, l.head? = some c → p c = false) : l.dropWhile p = l := by
  cases l with
  | nil => rfl
  | cons x xs =>
    have hx := h x rfl
    rw [List.dropWhile_cons, if_neg (by simp [hx])]

theorem trimChars_idem (l : List Char) :
    trimChars (trimChars l) = trimChars l := by
  unfold trimChars
  have h1 : (((l.dropWhile isJsWhitespace).reverse.dropWhile
      isJsWhitespace).reverse).dropWhile isJsWhitespace =
      ((l.dropWhile isJsWhitespace).reverse.dropWhile
        isJsWhitespace).reverse := by
    apply dropWhile_head_not
    intro c hc
    rw [List.head?_reverse] at hc
    have hne : (l.dropWhile isJsWhitespace).reverse.dropWhile
        isJsWhitespace ≠ [] := by
      intro hnil
      rw [hnil] at hc
      exact absurd hc (by simp)
    obtain ⟨t, ht⟩ := List.dropWhile_suffix (l := (l.dropWhile
      isJsWhitespace).reverse) isJsWhitespace
    have hgl : ((l.dropWhile isJsWhitespace).reverse).getLast? = some c := by
      rw [← ht, List.getLast?_append_of_ne_nil t hne]
      exact hc
    rw [List.getLast?_reverse] at hgl
    exact head_dropWhile_false isJsWhitespace l c hgl
  rw [h1, List.reverse_reverse,
    dropWhile_head_not isJsWhitespace _
      (fun c hc => head_dropWhile_false isJsWhitespace
        (l.dropWhile isJsWhitespace).reverse c hc)]

/-- Every chunk a successful loop run returns satisfies any property that
holds of the accumulated chunks and of every kept window's trimmed
content. -/
theorem chunkLoop_chunks_forall (text : List Char) (cfg : ChunkingConfig)
    (P : TextChunk → Prop)
    (hP : ∀ position chunkIndex : Nat,
      cfg.minChunkSize ≤ (windowContent text cfg position).length →
      P ⟨windowContent text cfg position, chunkIndex⟩) :
    ∀ (fuel position chunkIndex : Nat) (chunks : List TextChunk)
      (windows : List (Nat × Nat))
      (result : List TextChunk × List (Nat × Nat)),
      (∀ ch ∈ chunks, P ch) →
      chunkLoop text cfg fuel position chunkIndex chunks windows
        = some result →
      ∀ ch ∈ result.1, P ch := by
  intro fuel
  induction fuel with
  | zero =>
    intro position chunkIndex chunks windows result _ hrun
    exact absurd hrun (by simp [chunkLoop])
  | succ f ih =>
    intro position chunkIndex chunks windows result hch hrun
    by_cases hpos : position < text.length
    · rw [chunkLoop_shape text cfg f position chunkIndex chunks windows
        hpos] at hrun
      by_cases hkeep : cfg.minChunkSize ≤
          (windowContent text cfg position).length
      · rw [if_pos hkeep] at hrun
        apply ih _ _ _ _ _ ?_ hrun
        intro ch hc
        rcases List.mem_append.mp hc with h1 | h1
        · exact hch ch h1
        · rw [List.mem_singleton.mp h1]
          exact hP position chunkIndex hkeep
      · rw [if_neg hkeep] at hrun
        exact ih _ _ _ _ _ hch hrun
    · have hstop : chunkLoop text cfg (f + 1) position chunkIndex chunks
          windows = some (chunks, windows) := by
        unfold chunkLoop
        rw [if_neg hpos]
      rw [hstop] at hrun
      injection hrun with hrun
      rw [← hrun]
      exact hch

/-- C5 counterexample: on a 12-character text of eleven blanks and one
`b` — longer than `chunkSize = 10`, not whitespace-only — every window's
trimmed slice falls below `minChunkSize = 5`, so `splitIntoChunks` returns
the empty list even though the text is not empty or whitespace-only. -/
theorem splitIntoChunks_empty_counterexample :
    splitIntoChunks "           b".data ⟨10, 2, 5⟩ = [] ∧
    trimChars "           b".data ≠ [] :=
  ⟨by decide, by decide⟩

/-- C5 (amended): `splitIntoChunks` returns the empty list whenever the
text is empty or whitespace-only (but may also return it for longer
non-blank texts whose windows all trim below `minChunkSize`, see the
counterexample); a non-blank text no longer than `chunkSize` yields the
single trimmed chunk with index 0; every returned chunk is trimmed; in
the multi-chunk path every chunk meets `minChunkSize`; and with
`minChunkSize ≥ 1` no returned chunk is empty. -/
theorem splitIntoChunks_chunk_size_spec (text : List Char)
    (cfg : ChunkingConfig) :
    (trimChars text = [] → splitIntoChunks text cfg = []) ∧
    (trimChars text ≠ [] → text.length ≤ cfg.chunkSize →
      splitIntoChunks text cfg = [⟨trimChars text, 0⟩]) ∧
    (∀ ch ∈ splitIntoChunks text cfg, trimChars ch.content = ch.content) ∧
    (cfg.chunkSize < text.length →
      ∀ ch ∈ splitIntoChunks text cfg,
        cfg.minChunkSize ≤ ch.content.length) ∧
    (1 ≤ cfg.minChunkSize →
      ∀ ch ∈ splitIntoChunks text cfg, ch.content ≠ []) := by
  have hloop : ∀ (P : TextChunk → Prop),
      (∀ position chunkIndex : Nat,
        cfg.minChunkSize ≤ (windowContent text cfg position).length →
        P ⟨windowContent text cfg position, chunkIndex⟩) →
      cfg.chunkSize < text.length → trimChars text ≠ [] →
      ∀ ch ∈ splitIntoChunks text cfg, P ch := by
    intro P hP hlen h0 ch hch
    have hsplit : splitIntoChunks text cfg =
        ((chunkLoop text cfg (text.length + 1) 0 0 [] []).getD ([], [])).1 := by
      unfold splitIntoChunks
      rw [if_neg h0, if_neg (by omega : ¬ text.length ≤ cfg.chunkSize)]
    rw [hsplit] at hch
    cases hr : chunkLoop text cfg (text.length + 1) 0 0 [] [] with
    | none =>
      rw [hr] at hch
      exact absurd hch (by simp)
    | some r =>
      rw [hr] at hch
      exact chunkLoop_chunks_forall text cfg P hP _ 0 0 [] [] r
        (fun ch2 hc2 => absurd hc2 (List.not_mem_nil ch2)) hr ch hch
  refine ⟨?_, ?_, ?_, ?_, ?_⟩
  · intro h
    unfold splitIntoChunks
    rw [if_pos h]
  · intro h hlen
    unfold splitIntoChunks
    rw [if_neg h, if_pos hlen]
  · by_cases h0 : trimChars text = []
    · intro ch hch
      unfold splitIntoChunks at hch
      rw [if_pos h0] at hch
      exact absurd hch (by simp)
    · by_cases hlen : text.length ≤ cfg.chunkSize
      · intro ch hch
        unfold splitIntoChunks at hch
        rw [if_neg h0, if_pos hlen] at hch
        rw [List.mem_singleton.mp hch]
        exact trimChars_idem text
      · exact hloop (fun ch => trimChars ch.content = ch.content)
          (fun position chunkIndex _ => trimChars_idem _)
          (by omega) h0
  · intro hlen
    by_cases h0 : trimChars text = []
    · intro ch hch
      unfold splitIntoChunks at hch
      rw [if_pos h0] at hch
      exact absurd hch (by simp)
    · exact hloop (fun ch => cfg.minChunkSize ≤ ch.content.length)
        (fun position chunkIndex hk => hk) hlen h0
  · intro hmin
    by_cases h0 : trimChars text = []
    · intro ch hch
      unfold splitIntoChunks at hch
      rw [if_pos h0] at hch
      exact absurd hch (by simp)
    · by_cases hlen : text.length ≤ cfg.chunkSize
      · intro ch hch
        unfold splitIntoChunks at hch
        rw [if_neg h0, if_pos hlen] at hch
        rw [List.mem_singleton.mp hch]
        exact h0
      · exact hloop (fun ch => ch.content ≠ [])
          (fun position chunkIndex hk => by
            intro hnil
            have hnil2 : windowContent text cfg position = [] := hnil
            rw [hnil2] at hk
            simp only [List.length_nil] at hk
            omega)
          (by omega) h0

/-- C5 witness: a whitespace-only text yields no chunks, and a short text
yields the single trimmed chunk with index 0. -/
theorem splitIntoChunks_chunk_size_spec_witness :
    splitIntoChunks "  ".data ⟨10, 2, 5⟩ = [] ∧
    splitIntoChunks "hello".data ⟨10, 2, 5⟩ = [⟨"hello".data, 0⟩] := by
  constructor
  · exact (splitIntoChunks_chunk_size_spec "  ".data ⟨10, 2, 5⟩).1 (by decide)
  · have h := (splitIntoChunks_chunk_size_spec "hello".data
      ⟨10, 2, 5⟩).2.1 (by decide) (by decide)
    rw [h]
    decide

/-- C4 counterexample: with `chunkSize 10`, `overlap 2`, `minChunkSize 5`
on the text `aaaaaaaaaabb`, the trailing windows all trim below
`minChunkSize` and are discarded, so the final `b`s appear in no returned
chunk — concatenating the chunks does not reconstruct the text modulo
whitespace. -/
theorem splitIntoChunks_coverage_counterexample :
    splitIntoChunks "aaaaaaaaaabb".data ⟨10, 2, 5⟩ =
      [⟨"aaaaaaaaaa".data, 0⟩] ∧
    'b' ∈ "aaaaaaaaaabb".data ∧
    ∀ ch ∈ splitIntoChunks "aaaaaaaaaabb".data ⟨10, 2, 5⟩,
      'b' ∉ ch.content :=
  ⟨by decide, by decide, by decide⟩

/-- C4 (amended): the windows proposed by a terminating run of the
`splitIntoChunks` loop cover every character of the text, and every window
whose trimmed slice meets `minChunkSize` contributes that trimmed slice as
a chunk of the result (which is exactly what `splitIntoChunks` returns on
the multi-chunk path).  Source content can therefore be absent from every
chunk only by lying in windows discarded as shorter than `minChunkSize`
after trimming — which the counterexample shows does happen. -/
theorem splitIntoChunks_window_coverage (text : List Char)
    (cfg : ChunkingConfig) (hcs : 1 ≤ cfg.chunkSize)
    (result : List TextChunk × List (Nat × Nat))
    (hrun : chunkLoop text cfg (text.length + 1) 0 0 [] [] = some result) :
    (∀ i, i < text.length → ∃ w ∈ result.2, w.1 ≤ i ∧ i < w.2) ∧
    (∀ w ∈ result.2, w.2 = proposedEnd text cfg w.1 ∧
      (cfg.minChunkSize ≤ (windowContent text cfg w.1).length →
        ∃ ch ∈ result.1, ch.content = windowContent text cfg w.1)) ∧
    (trimChars text ≠ [] → cfg.chunkSize < text.length →
      splitIntoChunks text cfg = result.1) := by
  refine ⟨?_, ?_, ?_⟩
  · intro i hi
    exact chunkLoop_cover text cfg hcs _ 0 0 [] [] result hrun i
      (Nat.zero_le i) hi
  · intro w hw
    rcases (chunkLoop_windows_spec text cfg _ 0 0 [] [] result hrun).2.2
      w hw with h | h
    · exact absurd h (List.not_mem_nil w)
    · exact h
  · intro h0 hlen
    unfold splitIntoChunks
    rw [if_neg h0, if_neg (by omega : ¬ text.length ≤ cfg.chunkSize), hrun]
    rfl

/-- C4 witness for the amended theorem: on the text `ab` with unit chunk
size the two proposed windows cover position 0. -/
theorem splitIntoChunks_window_coverage_witness :
    ∃ w ∈ ([(0, 1), (1, 2)] : List (Nat × Nat)), w.1 ≤ 0 ∧ 0 < w.2 := by
  have hrun : chunkLoop "ab".data ⟨1, 0, 1⟩ ("ab".data.length + 1)
      0 0 [] [] = some ([⟨['a'], 0⟩, ⟨['b'], 1⟩], [(0, 1), (1, 2)]) := by
    decide
  exact (splitIntoChunks_window_coverage "ab".data ⟨1, 0, 1⟩ (by decide) _
    hrun).1 0 (by decide)

end DocumentChunker

end TechAssist
